import Mathlib

set_option linter.unusedVariables false

namespace Mongodrums

/- ## Utilities (src/mongodrums/util/__init__.py)

Keys and rendered shape strings are modelled as lists of characters.
The two Python replacements used by `_p_sanitize` and `_p_desanitize`
are `str.replace` calls with fixed literal arguments; each is embedded
as a structurally recursive scan with exactly Python's left-to-right,
non-overlapping semantics, specialised to its literal pattern. -/

/-- `k.replace('$', '_$_')` from `_p_sanitize`, specialised to its literal
arguments: every dollar character becomes the three-character token. -/
def sanDollarCh : List Char → List Char
  | [] => []
  | c :: rest =>
    if c = '$' then '_' :: '$' :: '_' :: sanDollarCh rest
    else c :: sanDollarCh rest

/-- `k.replace('.', '_,_')` from `_p_sanitize`, specialised to its literal
arguments: every dot character becomes the three-character token. -/
def sanDotCh : List Char → List Char
  | [] => []
  | c :: rest =>
    if c = '.' then '_' :: ',' :: '_' :: sanDotCh rest
    else c :: sanDotCh rest

/-- `k.replace('_$_', '$')` from `_p_desanitize`: left-to-right scan, at each
position the three-character token is consumed and replaced when present,
otherwise one character is emitted. -/
def desanDollarTok : List Char → List Char
  | c :: d :: e :: rest =>
    if c = '_' ∧ d = '$' ∧ e = '_' then '$' :: desanDollarTok rest
    else c :: desanDollarTok (d :: e :: rest)
  | s => s

/-- `k.replace('_,_', '.')` from `_p_desanitize`: left-to-right scan, at each
position the three-character token is consumed and replaced when present,
otherwise one character is emitted. -/
def desanCommaTok : List Char → List Char
  | c :: d :: e :: rest =>
    if c = '_' ∧ d = ',' ∧ e = '_' then '.' :: desanCommaTok rest
    else c :: desanCommaTok (d :: e :: rest)
  | s => s

/-- The full key rewriting done by `_p_sanitize` on a dict key:
`k.replace('$', '_$_').replace('.', '_,_')`. -/
def sanKey (k : List Char) : List Char := sanDotCh (sanDollarCh k)

/-- The full key rewriting done by `_p_desanitize` on a dict key:
`k.replace('_$_', '$').replace('_,_', '.')`. -/
def desanKey (k : List Char) : List Char := desanCommaTok (desanDollarTok k)

/-- Boolean prefix test on character lists. -/
def startsWithL : List Char → List Char → Bool
  | [], _ => true
  | _ :: _, [] => false
  | p :: ps, c :: cs => if p = c then startsWithL ps cs else false

/-- Boolean substring test: `pat` occurs contiguously inside the argument. -/
def hasInfix (pat : List Char) : List Char → Bool
  | [] => startsWithL pat []
  | c :: rest => startsWithL pat (c :: rest) || hasInfix pat rest

def tokDollar : List Char := ['_', '$', '_']
def tokComma : List Char := ['_', ',', '_']
def tokCommaDot : List Char := ['_', ',', '.']

/-- The proviso stated by the spec for the sanitize round trip: the key does
not contain either literal escape token as a substring. -/
def specTokenFree (k : List Char) : Bool :=
  !hasInfix tokDollar k && !hasInfix tokComma k

/-- The corrected proviso: additionally the key does not contain the
substring underscore-comma-dot, on which the two stacked replacements
of `_p_desanitize` misparse the sanitized form. -/
def goodKey (k : List Char) : Bool :=
  !hasInfix tokDollar k && !hasInfix tokComma k && !hasInfix tokCommaDot k

/- ### The document model

A runtime value handled by `_p_skeleton` / `_p_sanitize` / `_p_desanitize`:
scalar BSON leaves (int, long, str, unicode, bool, float, datetime,
ObjectId, compiled regex, Code, None, Binary, DBRef — all in `BSON_TYPES`,
abstracted as a numbered leaf), Python lists, plain dicts, `SON`
(field-ordered mapping, a member of `BSON_TYPES`), and runtime values of
any type outside the allow-list (carrying the name of the offending type). -/
inductive Value where
  | leaf (n : Nat)
  | vlist (xs : List Value)
  | vdict (kvs : List (List Char × Value))
  | vson (kvs : List (List Char × Value))
  | invalid (ty : List Char)

instance : Inhabited Value := ⟨.leaf 0⟩

/-- Errors raised by the utility functions: `InvalidDocument` carrying the
offending type (from `raise InvalidDocument('unknown BSON type %r' % t)`),
and `IndexError` (from indexing an empty filtered sequence in
`get_source`). -/
inductive PErr where
  | invalidDoc (ty : List Char)
  | indexError
deriving DecidableEq

mutual

/-- `_p_sanitize`: lists map recursively; plain dicts rewrite each key with
the two replacements and recurse on values; any type outside `BSON_TYPES`
raises `InvalidDocument`; every other value — including `SON`, which is a
member of `BSON_TYPES` and is not matched by the `t == dict` test — is
returned unchanged. -/
def sanV : Value → Except PErr Value
  | .leaf n => .ok (.leaf n)
  | .vson kvs => .ok (.vson kvs)
  | .invalid ty => .error (.invalidDoc ty)
  | .vlist xs =>
    match sanL xs with
    | .error e => .error e
    | .ok ys => .ok (.vlist ys)
  | .vdict kvs =>
    match sanP kvs with
    | .error e => .error e
    | .ok lws => .ok (.vdict lws)

def sanL : List Value → Except PErr (List Value)
  | [] => .ok []
  | x :: xs =>
    match sanV x with
    | .error e => .error e
    | .ok y =>
      match sanL xs with
      | .error e => .error e
      | .ok ys => .ok (y :: ys)

def sanP : List (List Char × Value) → Except PErr (List (List Char × Value))
  | [] => .ok []
  | (k, v) :: rest =>
    match sanV v with
    | .error e => .error e
    | .ok w =>
      match sanP rest with
      | .error e => .error e
      | .ok lws => .ok ((sanKey k, w) :: lws)

end

mutual

/-- `_p_desanitize`: the exact structural mirror of `_p_sanitize` with the
inverse key replacements; `SON` values are again returned unchanged. -/
def desanV : Value → Except PErr Value
  | .leaf n => .ok (.leaf n)
  | .vson kvs => .ok (.vson kvs)
  | .invalid ty => .error (.invalidDoc ty)
  | .vlist xs =>
    match desanL xs with
    | .error e => .error e
    | .ok ys => .ok (.vlist ys)
  | .vdict kvs =>
    match desanP kvs with
    | .error e => .error e
    | .ok lws => .ok (.vdict lws)

def desanL : List Value → Except PErr (List Value)
  | [] => .ok []
  | x :: xs =>
    match desanV x with
    | .error e => .error e
    | .ok y =>
      match desanL xs with
      | .error e => .error e
      | .ok ys => .ok (y :: ys)

def desanP : List (List Char × Value) → Except PErr (List (List Char × Value))
  | [] => .ok []
  | (k, v) :: rest =>
    match desanV v with
    | .error e => .error e
    | .ok w =>
      match desanP rest with
      | .error e => .error e
      | .ok lws => .ok ((desanKey k, w) :: lws)

end

/-- Strict lexicographic order on keys, as Python compares strings
(by character code, position by position, shorter prefix first). -/
def lexLt : List Char → List Char → Bool
  | [], [] => false
  | [], _ :: _ => true
  | _ :: _, [] => false
  | a :: as_, b :: bs =>
    if a < b then true
    else if a = b then lexLt as_ bs
    else false

/-- Stable insertion of a key-value pair into a key-sorted list. -/
def insertPair (p : List Char × Value) :
    List (List Char × Value) → List (List Char × Value)
  | [] => [p]
  | q :: rest => if lexLt p.1 q.1 then p :: q :: rest else q :: insertPair p rest

/-- `sorted(query_part.keys())` followed by value lookup, embedded as a
stable insertion sort of the pairs by key (dict keys are unique, so
iterating sorted keys and indexing is the same as sorting the pairs). -/
def sortPairs : List (List Char × Value) → List (List Char × Value)
  | [] => []
  | p :: rest => insertPair p (sortPairs rest)

/-- `','.join(out)` on rendered sub-shapes. -/
def joinComma (xs : List (List Char)) : List Char := List.intercalate [','] xs

theorem sizeOf_insertPair (p : List Char × Value)
    (l : List (List Char × Value)) :
    sizeOf (insertPair p l) = 1 + sizeOf p + sizeOf l := by
  induction l with
  | nil => simp [insertPair]
  | cons q rest ih =>
    simp only [insertPair]
    split
    · simp
    · simp [ih]; omega

theorem sizeOf_sortPairs (l : List (List Char × Value)) :
    sizeOf (sortPairs l) = sizeOf l := by
  induction l with
  | nil => rfl
  | cons p rest ih => simp [sortPairs, sizeOf_insertPair, ih]

mutual

/-- `_p_skeleton`: lists keep only the sub-shapes of elements that produce
one (scalar leaves produce none and are omitted) joined with commas in
brackets; dicts and `SON` iterate keys in sorted order emitting
`key:subshape` or the bare key, joined with commas in braces; scalar BSON
leaves produce no shape; any other type raises `InvalidDocument`. -/
def pSkel : Value → Except PErr (Option (List Char))
  | .leaf _ => .ok none
  | .invalid ty => .error (.invalidDoc ty)
  | .vlist xs =>
    match pSkelL xs with
    | .error e => .error e
    | .ok outs => .ok (some ('[' :: joinComma outs ++ [']']))
  | .vdict kvs =>
    match pSkelP (sortPairs kvs) with
    | .error e => .error e
    | .ok outs => .ok (some ('{' :: joinComma outs ++ ['}']))
  | .vson kvs =>
    match pSkelP (sortPairs kvs) with
    | .error e => .error e
    | .ok outs => .ok (some ('{' :: joinComma outs ++ ['}']))
termination_by v => sizeOf v
decreasing_by all_goals simp_wf <;> first | omega | (simp [sizeOf_sortPairs]; try omega)

def pSkelL : List Value → Except PErr (List (List Char))
  | [] => .ok []
  | x :: xs =>
    match pSkel x with
    | .error e => .error e
    | .ok none => pSkelL xs
    | .ok (some s) =>
      match pSkelL xs with
      | .error e => .error e
      | .ok outs => .ok (s :: outs)
termination_by xs => sizeOf xs
decreasing_by all_goals simp_wf <;> omega

def pSkelP : List (List Char × Value) → Except PErr (List (List Char))
  | [] => .ok []
  | (k, v) :: rest =>
    match pSkel v with
    | .error e => .error e
    | .ok none =>
      match pSkelP rest with
      | .error e => .error e
      | .ok outs => .ok (k :: outs)
    | .ok (some s) =>
      match pSkelP rest with
      | .error e => .error e
      | .ok outs => .ok ((k ++ ':' :: s) :: outs)
termination_by ps => sizeOf ps
decreasing_by all_goals simp_wf <;> omega

end

/- ### Call-site resolution (`get_source`, util lines 131-145)

A stack frame is modelled by the result of `get_pkg(f[0].f_globals)` (an
optional package name), plus the file path and line number used to render
the return string. -/

structure Frame where
  pkg : Option (List Char)
  file : List Char
  line : Nat

/-- `get_pkg(f[0].f_globals) not in filter_packages`, negated: a frame with
no resolvable package is never in the skip list (`None in [...]` is false
for a list of strings). -/
def inPackages (p : Option (List Char)) (fps : List (List Char)) : Bool :=
  match p with
  | some s => fps.contains s
  | none => false

/-- `'%s:%d' % (frame[1], frame[2])`. -/
def formatSource (f : Frame) : List Char :=
  f.file ++ ':' :: (Nat.repr f.line).data

/-- `get_source(filter_packages, up)` over an explicit stack: `stack[up]`
(raising `IndexError` when the stack is too short); when a filter list is
given, the frame is replaced by the first element of the frames from depth
`up` outward whose package is not in the list — `[0]` of that filtered
sequence raising `IndexError` when it is empty. -/
def get_source (filter_packages : Option (List (List Char))) (up : Nat)
    (stack : List Frame) : Except PErr (List Char) :=
  match stack.get? up with
  | none => .error .indexError
  | some f0 =>
    match filter_packages with
    | none => .ok (formatSource f0)
    | some fps =>
      match ((stack.drop up).filter (fun f => !inPackages f.pkg fps)).head? with
      | none => .error .indexError
      | some f => .ok (formatSource f)

/- ## Instrumentation engine (src/mongodrums/instrument.py)

### Exceptions and the profiling path

`_CursorMethodWrapper.__call__` catches `(TypeError, OperationFailure)`
around `explain` and substitutes an error document; the subsequent
`push` block catches every `Exception`. The exception universe is
modelled with the two caught kinds plus one representative for every
other `Exception` subclass (for example a network failure raised while
asking the server for a plan). -/

inductive PyExc where
  | typeError
  | operationFailure
  | otherExc
deriving DecidableEq

/-- The execution-plan document: either a genuine plan or the substitute
`{'error': traceback.format_exc()}` document built when `explain` fails
with a caught exception kind. -/
inductive PlanDoc where
  | plan (n : Nat)
  | errorDoc (e : PyExc)
deriving DecidableEq

/-- The profiling event pushed by the interceptors (instrument lines
99-106 and 192-198). -/
structure PushEvent where
  typ : List Char
  fn : List Char
  database : List Char
  collection : List Char
  query : List Char
  explain : PlanDoc
  source : List Char

def explainLit : List Char := ['e', 'x', 'p', 'l', 'a', 'i', 'n']
def findLit : List Char := ['f', 'i', 'n', 'd']
def updateLit : List Char := ['u', 'p', 'd', 'a', 't', 'e']

/-- The `try: push({...}) except Exception: logging.exception(...)` block:
the event is built from the (fallible) query encoding and call-site
resolution and handed to the (fallible) pusher; every failure of any of
those steps is caught and discarded. -/
def attemptPush (fn database collection : List Char)
    (dumpsQuery sourceRes : Except PyExc (List Char))
    (pushF : PushEvent → Except PyExc Unit) (pl : PlanDoc) : Unit :=
  match (match dumpsQuery with
         | .error e => .error e
         | .ok q =>
           match sourceRes with
           | .error e => .error e
           | .ok s => pushF ⟨explainLit, fn, database, collection, q, pl, s⟩ :
             Except PyExc Unit) with
  | _ => ()

/-- `_CursorMethodWrapper.__call__` (instrument lines 86-109) for a single
invocation: `tracked` is the atomic check-and-remove outcome; on a tracked
cursor, `explain` failing with `TypeError` or `OperationFailure` is caught
and replaced by the error document, any other exception kind propagates;
the push block never propagates; finally the original wrapped method is
invoked with the original arguments and its result returned. -/
def cursorMethodCall {α β : Type} (tracked : Bool)
    (explainRes : Except PyExc PlanDoc)
    (dumpsQuery sourceRes : Except PyExc (List Char))
    (pushF : PushEvent → Except PyExc Unit)
    (database collection : List Char)
    (orig : α → β) (arg : α) : Except PyExc β :=
  if tracked then
    match explainRes with
    | .ok pl =>
      let _ := attemptPush findLit database collection dumpsQuery sourceRes pushF pl
      .ok (orig arg)
    | .error .typeError =>
      let _ := attemptPush findLit database collection dumpsQuery sourceRes pushF
        (.errorDoc .typeError)
      .ok (orig arg)
    | .error .operationFailure =>
      let _ := attemptPush findLit database collection dumpsQuery sourceRes pushF
        (.errorDoc .operationFailure)
      .ok (orig arg)
    | .error .otherExc => .error .otherExc
  else .ok (orig arg)

/-- `UpdateWrapper.__call__` (instrument lines 183-201): when the sampling
draw selects the call, a cursor for the update spec is explained with the
same catch policy, the push block never propagates, and in every
non-propagating case the original wrapped `update` is invoked with the
original arguments and its result returned. -/
def updateCall {α β : Type} (sampled : Bool)
    (explainRes : Except PyExc PlanDoc)
    (dumpsQuery sourceRes : Except PyExc (List Char))
    (pushF : PushEvent → Except PyExc Unit)
    (database collection : List Char)
    (orig : α → β) (arg : α) : Except PyExc β :=
  if sampled then
    match explainRes with
    | .ok pl =>
      let _ := attemptPush updateLit database collection dumpsQuery sourceRes pushF pl
      .ok (orig arg)
    | .error .typeError =>
      let _ := attemptPush updateLit database collection dumpsQuery sourceRes pushF
        (.errorDoc .typeError)
      .ok (orig arg)
    | .error .operationFailure =>
      let _ := attemptPush updateLit database collection dumpsQuery sourceRes pushF
        (.errorDoc .operationFailure)
      .ok (orig arg)
    | .error .otherExc => .error .otherExc
  else .ok (orig arg)

/- ### The tracked-cursor set (instrument lines 71-109)

Cursors are identified by numbers; the weakly-referencing `_ids` set is a
finite set; `track_cursor` adds under lock; a terminal operation checks
membership and removes atomically under the same lock, pushing exactly
when the cursor was present. -/

/-- `track_cursor`: add the cursor to the shared set. -/
def trackCursor (c : Nat) (s : Finset Nat) : Finset Nat := insert c s

/-- The atomic check-and-remove done at the head of
`_CursorMethodWrapper.__call__`: returns the new set and whether this
terminal operation observed the cursor tracked (and hence pushes). -/
def termFire (s : Finset Nat) (c : Nat) : Finset Nat × Bool :=
  if c ∈ s then (s.erase c, true) else (s, false)

/-- Run a sequence of terminal operations (each given by the cursor it is
invoked on) against the tracked set, collecting the cursor of every
invocation that pushed a profiling event. -/
def runOps : Finset Nat → List Nat → List Nat
  | _, [] => []
  | s, c :: ops =>
    let r := termFire s c
    if r.2 then c :: runOps r.1 ops else runOps r.1 ops

/- ### Wrap / unwrap (instrument lines 111-127, 158-179, 203-220)

The five patched attribute slots (Collection.find, Collection.update and
the cursor next/count/distinct methods) each hold either an original
method or a wrapper object of the corresponding class carrying the
original in `_func`. -/

inductive Op where
  | base (n : Nat)
  | findW (inner : Op)
  | updateW (inner : Op)
  | cursorW (inner : Op)
deriving DecidableEq

def isFindW : Op → Bool
  | .findW _ => true
  | _ => false

def isUpdateW : Op → Bool
  | .updateW _ => true
  | _ => false

def isCursorW : Op → Bool
  | .cursorW _ => true
  | _ => false

structure InstrumentState where
  find : Op
  update : Op
  next : Op
  count : Op
  distinct : Op
deriving DecidableEq

/-- `_CursorMethodWrapper.wrap`: wrap the slot unless it already holds a
wrapper of this class. -/
def cursorWrapOp (o : Op) : Op := if isCursorW o then o else .cursorW o

/-- `_CursorMethodWrapper.unwrap`: restore `_func` when the slot holds a
wrapper of this class, otherwise leave it alone. -/
def cursorUnwrapOp : Op → Op
  | .cursorW f => f
  | o => o

/-- `FindWrapper.wrap`: when `Collection.find` is not already a
`FindWrapper`, wrap the three cursor terminal methods and install a
wrapper carrying the original find. -/
def findWrapS (st : InstrumentState) : InstrumentState :=
  if isFindW st.find then st
  else
    { st with
      next := cursorWrapOp st.next
      count := cursorWrapOp st.count
      distinct := cursorWrapOp st.distinct
      find := .findW st.find }

/-- `FindWrapper.unwrap`: when `Collection.find` holds a `FindWrapper`,
unwrap the cursor methods and restore the stored original find. -/
def findUnwrapS (st : InstrumentState) : InstrumentState :=
  match st.find with
  | .findW f =>
    { st with
      next := cursorUnwrapOp st.next
      count := cursorUnwrapOp st.count
      distinct := cursorUnwrapOp st.distinct
      find := f }
  | _ => st

/-- `UpdateWrapper.wrap`. -/
def updateWrapS (st : InstrumentState) : InstrumentState :=
  if isUpdateW st.update then st else { st with update := .updateW st.update }

/-- `UpdateWrapper.unwrap`. -/
def updateUnwrapS (st : InstrumentState) : InstrumentState :=
  match st.update with
  | .updateW f => { st with update := f }
  | _ => st

/- ## Event sinks (src/mongodrums/sink.py) -/

/-- The fields of a received profiling event that the index-profile sink
reads: `session`, `collection`, `explain.cursor` (the chosen index),
`query`, `explain.indexOnly` and `explain.millis`. -/
structure SEvent where
  session : List Char
  collection : List Char
  cursor : List Char
  query : List Char
  indexOnly : Bool
  millis : Int
deriving DecidableEq

/-- One entry of the `queries` array of an index-profile document;
`covered` is absent until the first positional `$set` writes it. -/
structure QEntry where
  query : List Char
  count : Nat
  covered : Option Bool
  durations : List Int
deriving DecidableEq

/-- A persisted index-profile aggregate document. -/
structure IxDoc where
  session : List Char
  collection : List Char
  index : List Char
  queries : List QEntry
deriving DecidableEq

/-- The stored index-profile collection, in insertion order. -/
abbrev Store := List IxDoc

/-- Whether a stored document matches the key triple of an event. -/
def tripleEq (d : IxDoc) (e : SEvent) : Bool :=
  d.session = e.session && d.collection = e.collection && d.index = e.cursor

/-- Whether some entry of the `queries` array has the given query value
(the `queries.query` equality / `$ne` match). -/
def hasQuery (d : IxDoc) (q : List Char) : Bool :=
  d.queries.any (fun en => en.query = q)

/-- Modelled from the spec: the index-profile collection (its accessor
lives in `mongodrums/collection.py`, which is not in the excerpt) carries
a uniqueness constraint on `(session, collection, index)`, so the
optimistic `insert` of step 2 of `IndexProfileSink.send` appends a fresh
aggregate document and raises `DuplicateKeyError` — swallowed by `send` —
when a document for the triple already exists. -/
def insertAggregate (e : SEvent) (st : Store) : Store :=
  if st.any (fun d => tripleEq d e) then st
  else st ++ [⟨e.session, e.collection, e.cursor, []⟩]

/-- Modelled from the spec: a MongoDB `update` without `multi` modifies
the first stored document matching the spec, and does nothing when no
document matches. -/
def updateFirst (p : IxDoc → Bool) (f : IxDoc → IxDoc) : Store → Store
  | [] => []
  | d :: ds => if p d then f d :: ds else d :: updateFirst p f ds

/-- The conditional `$push` of `IndexProfileSink.send` (sink lines 83-94):
on the document matching the triple and having no `queries` entry with
this query value, append `{query, count: 0, durations: []}`. -/
def pushFreshEntry (e : SEvent) : Store → Store :=
  updateFirst (fun d => tripleEq d e && !hasQuery d e.query)
    (fun d => { d with queries := d.queries ++ [⟨e.query, 0, none, []⟩] })

/-- The positional update of the first `queries` entry with this query
value (`$inc queries.$.count`, `$set queries.$.covered`,
`$push queries.$.durations`). -/
def bumpFirst (q : List Char) (io : Bool) (m : Int) : List QEntry → List QEntry
  | [] => []
  | en :: ens =>
    if en.query = q then
      { en with
        count := en.count + 1
        covered := some io
        durations := en.durations ++ [m] } :: ens
    else en :: bumpFirst q io m ens

/-- The final update of `IndexProfileSink.send` (sink lines 96-107). -/
def bumpEntry (e : SEvent) : Store → Store :=
  updateFirst (fun d => tripleEq d e && hasQuery d e.query)
    (fun d => { d with queries := bumpFirst e.query e.indexOnly e.millis d.queries })

/-- `IndexProfileSink.send` (sink lines 71-107): optimistic insert with
the duplicate-key failure swallowed, conditional entry creation, then the
positional increment/set/push. -/
def sinkSend (e : SEvent) (st : Store) : Store :=
  bumpEntry e (pushFreshEntry e (insertAggregate e st))

/-- Whether a stored document carries the given key triple. -/
def keyMatches (d : IxDoc) (sess coll idx : List Char) : Bool :=
  d.session = sess && d.collection = coll && d.index = idx

/-- First stored document for a key triple. -/
def findDoc (sess coll idx : List Char) (st : Store) : Option IxDoc :=
  st.find? (fun d => keyMatches d sess coll idx)

/-- Process, in order, a run of events sharing the session, collection,
index and query value, each observation contributing its `indexOnly` flag
and `millis` duration. -/
def sendRun (sess coll idx q : List Char) (obs : List (Bool × Int))
    (st : Store) : Store :=
  obs.foldl (fun acc p => sinkSend ⟨sess, coll, idx, q, p.1, p.2⟩ acc) st

/- ### The sink abstraction (sink lines 9-38, 115-116) -/

/-- `Sink.handle(data, address)`: call `send` exactly when `filter`
returns false; drop the event otherwise. The persistence effect of `send`
is abstracted as a state transformer. -/
def sinkHandle {ev addr σ : Type} (filterF : ev → addr → Bool)
    (sendF : ev → addr → σ → σ) (e : ev) (a : addr) (st : σ) : σ :=
  if filterF e a then st else sendF e a st

/-- `ProfileSink.filter` (inherited by `IndexProfileSink`):
`data['collection'].startswith('$')`. -/
def profileFilter (e : SEvent) (a : List Char) : Bool :=
  match e.collection with
  | c :: _ => c = '$'
  | [] => false

/-- The fields persisted by the query-profile sink. -/
structure QPEvent where
  fn : List Char
  database : List Char
  collection : List Char
  session : List Char
  explain : Value
  query : List Char
  source : List Char

/-- `QueryProfileSink.filter`, an identical re-declaration of the same
rule (sink lines 115-116). -/
def queryProfileFilter (e : QPEvent) (a : List Char) : Bool :=
  match e.collection with
  | c :: _ => c = '$'
  | [] => false

/- ### Document predicates used to state the claims -/

mutual

/-- A value of a type outside the allow-list occurs at a position that
`_p_sanitize` / `_p_desanitize` actually visit: reachable through lists
and plain dicts (the interiors of `SON` values are never visited by
them). -/
def hasInvalidSan : Value → Bool
  | .leaf _ => false
  | .vson _ => false
  | .invalid _ => true
  | .vlist xs => hasInvalidSanL xs
  | .vdict kvs => hasInvalidSanP kvs

def hasInvalidSanL : List Value → Bool
  | [] => false
  | x :: xs => hasInvalidSan x || hasInvalidSanL xs

def hasInvalidSanP : List (List Char × Value) → Bool
  | [] => false
  | (_, v) :: rest => hasInvalidSan v || hasInvalidSanP rest

end

mutual

/-- A value of a type outside the allow-list occurs anywhere in the
document, including inside `SON` values (the positions `_p_skeleton`
visits). -/
def hasInvalidFull : Value → Bool
  | .leaf _ => false
  | .vson kvs => hasInvalidFullP kvs
  | .invalid _ => true
  | .vlist xs => hasInvalidFullL xs
  | .vdict kvs => hasInvalidFullP kvs

def hasInvalidFullL : List Value → Bool
  | [] => false
  | x :: xs => hasInvalidFull x || hasInvalidFullL xs

def hasInvalidFullP : List (List Char × Value) → Bool
  | [] => false
  | (_, v) :: rest => hasInvalidFull v || hasInvalidFullP rest

end

mutual

/-- The type names of all invalid nodes reachable through lists and plain
dicts, in sanitize traversal order. -/
def invTagsSan : Value → List (List Char)
  | .leaf _ => []
  | .vson _ => []
  | .invalid ty => [ty]
  | .vlist xs => invTagsSanL xs
  | .vdict kvs => invTagsSanP kvs

def invTagsSanL : List Value → List (List Char)
  | [] => []
  | x :: xs => invTagsSan x ++ invTagsSanL xs

def invTagsSanP : List (List Char × Value) → List (List Char)
  | [] => []
  | (_, v) :: rest => invTagsSan v ++ invTagsSanP rest

end

mutual

/-- The type names of all invalid nodes anywhere in the document. -/
def invTagsFull : Value → List (List Char)
  | .leaf _ => []
  | .vson kvs => invTagsFullP kvs
  | .invalid ty => [ty]
  | .vlist xs => invTagsFullL xs
  | .vdict kvs => invTagsFullP kvs

def invTagsFullL : List Value → List (List Char)
  | [] => []
  | x :: xs => invTagsFull x ++ invTagsFullL xs

def invTagsFullP : List (List Char × Value) → List (List Char)
  | [] => []
  | (_, v) :: rest => invTagsFull v ++ invTagsFullP rest

end

mutual

/-- Every plain-dict key reachable through lists and plain dicts satisfies
the (corrected) round-trip proviso. -/
def goodKeys : Value → Bool
  | .leaf _ => true
  | .vson _ => true
  | .invalid _ => true
  | .vlist xs => goodKeysL xs
  | .vdict kvs => goodKeysP kvs

def goodKeysL : List Value → Bool
  | [] => true
  | x :: xs => goodKeys x && goodKeysL xs

def goodKeysP : List (List Char × Value) → Bool
  | [] => true
  | (k, v) :: rest => goodKey k && goodKeys v && goodKeysP rest

end

mutual

/-- What the (amended) spec says `sanitize` computes, as a total function
on documents with no invalid node at a sanitize-visited position: rewrite
every plain-dict key with the two replacements at every nesting level
reachable through lists and plain dicts; leave leaf values — and `SON`
values in their entirety — unchanged. -/
def sanSpec : Value → Value
  | .leaf n => .leaf n
  | .vson kvs => .vson kvs
  | .invalid ty => .invalid ty
  | .vlist xs => .vlist (sanSpecL xs)
  | .vdict kvs => .vdict (sanSpecP kvs)

def sanSpecL : List Value → List Value
  | [] => []
  | x :: xs => sanSpec x :: sanSpecL xs

def sanSpecP : List (List Char × Value) → List (List Char × Value)
  | [] => []
  | (k, v) :: rest => (sanKey k, sanSpec v) :: sanSpecP rest

end

/-- Scalar BSON leaves (the values for which `_p_skeleton` yields no
sub-shape). -/
def isLeafB : Value → Bool
  | .leaf _ => true
  | _ => false

mutual

/-- Two documents have identical key structure: same constructors, same
keys at every mapping position (in the same stored order), and scalar
leaves wherever the other has a scalar leaf — leaf payloads are free. -/
def sameStruct : Value → Value → Bool
  | .leaf _, .leaf _ => true
  | .invalid ty, .invalid ty' => ty = ty'
  | .vlist xs, .vlist ys => sameStructL xs ys
  | .vdict kvs, .vdict lws => sameStructP kvs lws
  | .vson kvs, .vson lws => sameStructP kvs lws
  | _, _ => false

def sameStructL : List Value → List Value → Bool
  | [], [] => true
  | x :: xs, y :: ys => sameStruct x y && sameStructL xs ys
  | _, _ => false

def sameStructP : List (List Char × Value) → List (List Char × Value) → Bool
  | [], [] => true
  | (k, v) :: rest, (k', v') :: rest' =>
    k = k' && sameStruct v v' && sameStructP rest rest'
  | _, _ => false

end

/-- Structural induction principle for documents giving the inductive
hypothesis at every list element and every mapping value. -/
theorem Value.myInd {P : Value → Prop}
    (hleaf : ∀ n, P (.leaf n))
    (hinv : ∀ ty, P (.invalid ty))
    (hlist : ∀ xs, (∀ x ∈ xs, P x) → P (.vlist xs))
    (hdict : ∀ kvs, (∀ p ∈ kvs, P p.2) → P (.vdict kvs))
    (hson : ∀ kvs, (∀ p ∈ kvs, P p.2) → P (.vson kvs)) :
    ∀ v, P v := fun v =>
  match v with
  | .leaf n => hleaf n
  | .invalid ty => hinv ty
  | .vlist xs =>
    hlist xs (fun x hx =>
      have : sizeOf x < 1 + sizeOf xs := by
        have := List.sizeOf_lt_of_mem hx
        omega
      Value.myInd hleaf hinv hlist hdict hson x)
  | .vdict kvs =>
    hdict kvs (fun p hp =>
      have : sizeOf p.2 < 1 + sizeOf kvs := by
        have h1 := List.sizeOf_lt_of_mem hp
        have h2 : sizeOf p.2 < sizeOf p := by
          obtain ⟨a, b⟩ := p
          simp only [Prod.mk.sizeOf_spec]
          omega
        omega
      Value.myInd hleaf hinv hlist hdict hson p.2)
  | .vson kvs =>
    hson kvs (fun p hp =>
      have : sizeOf p.2 < 1 + sizeOf kvs := by
        have h1 := List.sizeOf_lt_of_mem hp
        have h2 : sizeOf p.2 < sizeOf p := by
          obtain ⟨a, b⟩ := p
          simp only [Prod.mk.sizeOf_spec]
          omega
        omega
      Value.myInd hleaf hinv hlist hdict hson p.2)
termination_by v => sizeOf v

/- ## Lemmas about the key replacements -/

theorem hasInfix_cons_false {pat : List Char} {c : Char} {rest : List Char}
    (h : hasInfix pat (c :: rest) = false) : hasInfix pat rest = false := by
  simp only [hasInfix, Bool.or_eq_false_iff] at h
  exact h.2

theorem desanDollarTok_cons (c : Char) (X : List Char)
    (h : ∀ d e rest, X = d :: e :: rest → ¬(c = '_' ∧ d = '$' ∧ e = '_')) :
    desanDollarTok (c :: X) = c :: desanDollarTok X := by
  match X with
  | [] => rfl
  | [d] => rfl
  | d :: e :: rest =>
    simp only [desanDollarTok]
    rw [if_neg (h d e rest rfl)]

theorem desanCommaTok_cons (c : Char) (X : List Char)
    (h : ∀ d e rest, X = d :: e :: rest → ¬(c = '_' ∧ d = ',' ∧ e = '_')) :
    desanCommaTok (c :: X) = c :: desanCommaTok X := by
  match X with
  | [] => rfl
  | [d] => rfl
  | d :: e :: rest =>
    simp only [desanCommaTok]
    rw [if_neg (h d e rest rfl)]

theorem sanDollarCh_dollar (t : List Char) :
    sanDollarCh ('$' :: t) = '_' :: '$' :: '_' :: sanDollarCh t := by
  simp [sanDollarCh]

theorem sanDollarCh_cons {c : Char} (h : c ≠ '$') (t : List Char) :
    sanDollarCh (c :: t) = c :: sanDollarCh t := by
  simp [sanDollarCh, h]

theorem sanDotCh_dot (t : List Char) :
    sanDotCh ('.' :: t) = '_' :: ',' :: '_' :: sanDotCh t := by
  simp [sanDotCh]

theorem sanDotCh_cons {c : Char} (h : c ≠ '.') (t : List Char) :
    sanDotCh (c :: t) = c :: sanDotCh t := by
  simp [sanDotCh, h]

theorem desanDollarTok_tok (rest : List Char) :
    desanDollarTok ('_' :: '$' :: '_' :: rest) = '$' :: desanDollarTok rest := by
  simp [desanDollarTok]

theorem desanCommaTok_tok (rest : List Char) :
    desanCommaTok ('_' :: ',' :: '_' :: rest) = '.' :: desanCommaTok rest := by
  simp [desanCommaTok]

/-- The head of a fully sanitized key is never a dollar: dollars only occur
as the middle of an inserted token. -/
theorem sanKey_head_ne_dollar (t : List Char) {z : Char} {zs : List Char}
    (h : sanDotCh (sanDollarCh t) = z :: zs) : z ≠ '$' := by
  match t with
  | [] => simp [sanDollarCh, sanDotCh] at h
  | c :: t' =>
    by_cases hc : c = '$'
    · subst hc
      rw [sanDollarCh_dollar, sanDotCh_cons (by decide)] at h
      rw [List.cons.injEq] at h
      rw [← h.1]; decide
    · rw [sanDollarCh_cons hc] at h
      by_cases hd : c = '.'
      · subst hd
        rw [sanDotCh_dot] at h
        rw [List.cons.injEq] at h
        rw [← h.1]; decide
      · rw [sanDotCh_cons hd] at h
        rw [List.cons.injEq] at h
        rw [← h.1]; exact hc

/-- The head of a dot-encoded key whose source head is not a comma is
never a comma. -/
theorem sanDotCh_head_ne_comma {d : Char} (hd : d ≠ ',') (t : List Char)
    {z : Char} {zs : List Char} (h : sanDotCh (d :: t) = z :: zs) :
    z ≠ ',' := by
  by_cases hdot : d = '.'
  · subst hdot
    rw [sanDotCh_dot] at h
    rw [List.cons.injEq] at h
    rw [← h.1]; decide
  · rw [sanDotCh_cons hdot] at h
    rw [List.cons.injEq] at h
    rw [← h.1]; exact hd

/-- First desanitize replacement undoes the dollar encoding and leaves the
dot encoding alone: `s.replace('_$_', '$')` applied to
`k.replace('$','_$_').replace('.','_,_')` yields `k.replace('.','_,_')`. -/
theorem desanDollarTok_sanKey (t : List Char) :
    desanDollarTok (sanDotCh (sanDollarCh t)) = sanDotCh t := by
  induction t with
  | nil => rfl
  | cons c t' ih =>
    by_cases hc : c = '$'
    · subst hc
      rw [sanDollarCh_dollar, sanDotCh_cons (by decide), sanDotCh_cons (by decide),
        sanDotCh_cons (by decide), desanDollarTok_tok, ih,
        sanDotCh_cons (by decide)]
    · rw [sanDollarCh_cons hc]
      by_cases hd : c = '.'
      · subst hd
        rw [sanDotCh_dot]
        rw [desanDollarTok_cons _ _ (fun d e rest h hcontra => by
          rw [List.cons.injEq] at h
          rw [← h.1] at hcontra
          exact absurd hcontra.2.1 (by decide))]
        rw [desanDollarTok_cons _ _ (fun d e rest h hcontra => by
          exact absurd hcontra.1 (by decide))]
        rw [desanDollarTok_cons _ _ (fun d e rest h hcontra => by
          exact absurd hcontra.2.1 (sanKey_head_ne_dollar t' h))]
        rw [ih, sanDotCh_dot]
      · rw [sanDotCh_cons hd]
        rw [desanDollarTok_cons _ _ (fun d e rest h hcontra => by
          exact absurd hcontra.2.1 (sanKey_head_ne_dollar t' h))]
        rw [ih, sanDotCh_cons hd]

/-- Second desanitize replacement undoes the dot encoding, provided the
key contains neither the comma escape token nor the underscore-comma-dot
substring on which the scan misparses. Stated with a fuel bound to drive
strong induction (the scan looks two characters ahead). -/
theorem desanCommaTok_sanDotCh_bounded (n : Nat) :
    ∀ (k : List Char), k.length ≤ n →
      hasInfix tokComma k = false → hasInfix tokCommaDot k = false →
      desanCommaTok (sanDotCh k) = k := by
  induction n with
  | zero =>
    intro k hk _ _
    rw [List.length_eq_zero.1 (Nat.le_zero.1 hk)]
    rfl
  | succ n ih =>
    intro k hk h1 h2
    match k with
    | [] => rfl
    | c :: t =>
      rw [List.length_cons, Nat.succ_le_succ_iff] at hk
      by_cases hc : c = '.'
      · subst hc
        rw [sanDotCh_dot, desanCommaTok_tok,
          ih t hk (hasInfix_cons_false h1) (hasInfix_cons_false h2)]
      · rw [sanDotCh_cons hc]
        by_cases hu : c = '_'
        · subst hu
          match t with
          | [] => rfl
          | d :: t2 =>
            by_cases hd : d = ','
            · subst hd
              rw [sanDotCh_cons (by decide)]
              match t2 with
              | [] => rfl
              | e2 :: t3 =>
                by_cases he2 : e2 = '_'
                · subst he2
                  simp [hasInfix, startsWithL, tokComma] at h1
                · by_cases he2d : e2 = '.'
                  · subst he2d
                    simp [hasInfix, startsWithL, tokCommaDot] at h2
                  · rw [sanDotCh_cons he2d]
                    rw [desanCommaTok_cons _ _ (fun d' e rest h hcontra => by
                      rw [List.cons.injEq] at h
                      have h' := h.2
                      rw [List.cons.injEq] at h'
                      exact absurd hcontra.2.2 (by rw [← h'.1]; exact he2))]
                    rw [desanCommaTok_cons _ _ (fun d' e rest h hcontra => by
                      exact absurd hcontra.1 (by decide))]
                    have hrec := ih (e2 :: t3)
                      (by simp at hk ⊢; omega)
                      (hasInfix_cons_false (hasInfix_cons_false h1))
                      (hasInfix_cons_false (hasInfix_cons_false h2))
                    rw [sanDotCh_cons he2d] at hrec
                    rw [hrec]
            · rw [desanCommaTok_cons _ _ (fun d' e rest h hcontra => by
                exact absurd hcontra.2.1 (sanDotCh_head_ne_comma hd t2 h))]
              rw [ih (d :: t2) hk (hasInfix_cons_false h1) (hasInfix_cons_false h2)]
        · rw [desanCommaTok_cons _ _ (fun d e rest h hcontra => by
            exact absurd hcontra.1 hu)]
          rw [ih t hk (hasInfix_cons_false h1) (hasInfix_cons_false h2)]

theorem desanCommaTok_sanDotCh (k : List Char)
    (h1 : hasInfix tokComma k = false) (h2 : hasInfix tokCommaDot k = false) :
    desanCommaTok (sanDotCh k) = k :=
  desanCommaTok_sanDotCh_bounded k.length k (Nat.le_refl _) h1 h2

/-- The full key round trip, under the corrected proviso. -/
theorem desanKey_sanKey (k : List Char)
    (h1 : hasInfix tokComma k = false) (h2 : hasInfix tokCommaDot k = false) :
    desanKey (sanKey k) = k := by
  unfold desanKey sanKey
  rw [desanDollarTok_sanKey, desanCommaTok_sanDotCh k h1 h2]

theorem goodKey_parts {k : List Char} (h : goodKey k = true) :
    hasInfix tokComma k = false ∧ hasInfix tokCommaDot k = false := by
  simp only [goodKey, Bool.and_eq_true, Bool.not_eq_true'] at h
  exact ⟨h.1.2, h.2⟩

/- ## Value-level sanitize lemmas -/

theorem sanL_ok : ∀ (xs : List Value),
    (∀ x ∈ xs, hasInvalidSan x = false → sanV x = .ok (sanSpec x)) →
    hasInvalidSanL xs = false → sanL xs = .ok (sanSpecL xs)
  | [], _, _ => rfl
  | x :: xs, ih, h => by
    simp only [hasInvalidSanL, Bool.or_eq_false_iff] at h
    simp only [sanL, sanSpecL]
    rw [ih x (List.mem_cons_self x xs) h.1]
    rw [sanL_ok xs (fun y hy => ih y (List.mem_cons_of_mem x hy)) h.2]

theorem sanP_ok : ∀ (kvs : List (List Char × Value)),
    (∀ p ∈ kvs, hasInvalidSan p.2 = false → sanV p.2 = .ok (sanSpec p.2)) →
    hasInvalidSanP kvs = false → sanP kvs = .ok (sanSpecP kvs)
  | [], _, _ => rfl
  | (k, v) :: rest, ih, h => by
    simp only [hasInvalidSanP, Bool.or_eq_false_iff] at h
    simp only [sanP, sanSpecP]
    rw [ih (k, v) (List.mem_cons_self _ rest) h.1]
    rw [sanP_ok rest (fun p hp => ih p (List.mem_cons_of_mem _ hp)) h.2]

/-- `_p_sanitize` agrees with the amended-spec function on every document
with no disallowed type at a sanitize-visited position. -/
theorem sanV_ok (x : Value) : hasInvalidSan x = false → sanV x = .ok (sanSpec x) := by
  induction x using Value.myInd with
  | hleaf n => intro h; rfl
  | hinv ty => intro h; simp [hasInvalidSan] at h
  | hson kvs ih => intro h; rfl
  | hlist xs ih =>
    intro h
    simp only [hasInvalidSan] at h
    simp only [sanV, sanSpec]
    rw [sanL_ok xs ih h]
  | hdict kvs ih =>
    intro h
    simp only [hasInvalidSan] at h
    simp only [sanV, sanSpec]
    rw [sanP_ok kvs ih h]

theorem desanL_spec : ∀ (xs : List Value),
    (∀ x ∈ xs, goodKeys x = true → hasInvalidSan x = false →
      desanV (sanSpec x) = .ok x) →
    goodKeysL xs = true → hasInvalidSanL xs = false →
    desanL (sanSpecL xs) = .ok xs
  | [], _, _, _ => rfl
  | x :: xs, ih, hg, hi => by
    simp only [goodKeysL, Bool.and_eq_true] at hg
    simp only [hasInvalidSanL, Bool.or_eq_false_iff] at hi
    simp only [sanSpecL, desanL]
    rw [ih x (List.mem_cons_self x xs) hg.1 hi.1]
    rw [desanL_spec xs (fun y hy => ih y (List.mem_cons_of_mem x hy)) hg.2 hi.2]

theorem desanP_spec : ∀ (kvs : List (List Char × Value)),
    (∀ p ∈ kvs, goodKeys p.2 = true → hasInvalidSan p.2 = false →
      desanV (sanSpec p.2) = .ok p.2) →
    goodKeysP kvs = true → hasInvalidSanP kvs = false →
    desanP (sanSpecP kvs) = .ok kvs
  | [], _, _, _ => rfl
  | (k, v) :: rest, ih, hg, hi => by
    simp only [goodKeysP, Bool.and_eq_true] at hg
    simp only [hasInvalidSanP, Bool.or_eq_false_iff] at hi
    simp only [sanSpecP, desanP]
    rw [ih (k, v) (List.mem_cons_self _ rest) hg.1.2 hi.1]
    rw [desanP_spec rest (fun p hp => ih p (List.mem_cons_of_mem _ hp)) hg.2 hi.2]
    rw [desanKey_sanKey k (goodKey_parts hg.1.1).1 (goodKey_parts hg.1.1).2]

/-- `_p_desanitize` inverts the amended-spec sanitize on every document
whose visited keys satisfy the corrected proviso. -/
theorem desanV_sanSpec (x : Value) :
    goodKeys x = true → hasInvalidSan x = false → desanV (sanSpec x) = .ok x := by
  induction x using Value.myInd with
  | hleaf n => intro _ _; rfl
  | hinv ty => intro _ hi; simp [hasInvalidSan] at hi
  | hson kvs ih => intro _ _; rfl
  | hlist xs ih =>
    intro hg hi
    simp only [goodKeys] at hg
    simp only [hasInvalidSan] at hi
    simp only [sanSpec, desanV]
    rw [desanL_spec xs ih hg hi]
  | hdict kvs ih =>
    intro hg hi
    simp only [goodKeys] at hg
    simp only [hasInvalidSan] at hi
    simp only [sanSpec, desanV]
    rw [desanP_spec kvs ih hg hi]

theorem hasInvalidSanL_of_full : ∀ (xs : List Value),
    (∀ x ∈ xs, hasInvalidFull x = false → hasInvalidSan x = false) →
    hasInvalidFullL xs = false → hasInvalidSanL xs = false
  | [], _, _ => rfl
  | x :: xs, ih, h => by
    simp only [hasInvalidFullL, Bool.or_eq_false_iff] at h
    simp only [hasInvalidSanL, Bool.or_eq_false_iff]
    exact ⟨ih x (List.mem_cons_self x xs) h.1,
      hasInvalidSanL_of_full xs (fun y hy => ih y (List.mem_cons_of_mem x hy)) h.2⟩

theorem hasInvalidSanP_of_full : ∀ (kvs : List (List Char × Value)),
    (∀ p ∈ kvs, hasInvalidFull p.2 = false → hasInvalidSan p.2 = false) →
    hasInvalidFullP kvs = false → hasInvalidSanP kvs = false
  | [], _, _ => rfl
  | (k, v) :: rest, ih, h => by
    simp only [hasInvalidFullP, Bool.or_eq_false_iff] at h
    simp only [hasInvalidSanP, Bool.or_eq_false_iff]
    exact ⟨ih (k, v) (List.mem_cons_self _ rest) h.1,
      hasInvalidSanP_of_full rest (fun p hp => ih p (List.mem_cons_of_mem _ hp)) h.2⟩

/-- Positions visited by sanitize are a subset of all positions: a fully
valid document has no invalid node at a sanitize-visited position. -/
theorem hasInvalidSan_of_full (x : Value) :
    hasInvalidFull x = false → hasInvalidSan x = false := by
  induction x using Value.myInd with
  | hleaf n => intro _; rfl
  | hinv ty => intro h; simp [hasInvalidFull] at h
  | hson kvs ih => intro _; rfl
  | hlist xs ih =>
    intro h
    simp only [hasInvalidFull] at h
    simp only [hasInvalidSan]
    exact hasInvalidSanL_of_full xs ih h
  | hdict kvs ih =>
    intro h
    simp only [hasInvalidFull] at h
    simp only [hasInvalidSan]
    exact hasInvalidSanP_of_full kvs ih h

/- ## Error propagation lemmas -/

theorem sanL_err : ∀ (xs : List Value),
    (∀ x ∈ xs, hasInvalidSan x = true →
      ∃ t, t ∈ invTagsSan x ∧ sanV x = .error (.invalidDoc t)) →
    hasInvalidSanL xs = true →
    ∃ t, t ∈ invTagsSanL xs ∧ sanL xs = .error (.invalidDoc t)
  | [], _, h => by simp [hasInvalidSanL] at h
  | x :: xs, ih, h => by
    by_cases hx : hasInvalidSan x = true
    · obtain ⟨t, ht, he⟩ := ih x (List.mem_cons_self x xs) hx
      refine ⟨t, ?_, ?_⟩
      · simp only [invTagsSanL]
        exact List.mem_append_left _ ht
      · simp only [sanL]
        rw [he]
    · rw [Bool.not_eq_true] at hx
      simp only [hasInvalidSanL, Bool.or_eq_true] at h
      have htail : hasInvalidSanL xs = true := by
        rcases h with h | h
        · rw [hx] at h; exact absurd h (by decide)
        · exact h
      obtain ⟨t, ht, he⟩ := sanL_err xs
        (fun y hy => ih y (List.mem_cons_of_mem x hy)) htail
      refine ⟨t, ?_, ?_⟩
      · simp only [invTagsSanL]
        exact List.mem_append_right _ ht
      · simp only [sanL]
        rw [sanV_ok x hx, he]

theorem sanP_err : ∀ (kvs : List (List Char × Value)),
    (∀ p ∈ kvs, hasInvalidSan p.2 = true →
      ∃ t, t ∈ invTagsSan p.2 ∧ sanV p.2 = .error (.invalidDoc t)) →
    hasInvalidSanP kvs = true →
    ∃ t, t ∈ invTagsSanP kvs ∧ sanP kvs = .error (.invalidDoc t)
  | [], _, h => by simp [hasInvalidSanP] at h
  | (k, v) :: rest, ih, h => by
    by_cases hv : hasInvalidSan v = true
    · obtain ⟨t, ht, he⟩ := ih (k, v) (List.mem_cons_self _ rest) hv
      refine ⟨t, ?_, ?_⟩
      · simp only [invTagsSanP]
        exact List.mem_append_left _ ht
      · simp only [sanP]
        rw [he]
    · rw [Bool.not_eq_true] at hv
      simp only [hasInvalidSanP, Bool.or_eq_true] at h
      have htail : hasInvalidSanP rest = true := by
        rcases h with h | h
        · rw [hv] at h; exact absurd h (by decide)
        · exact h
      obtain ⟨t, ht, he⟩ := sanP_err rest
        (fun p hp => ih p (List.mem_cons_of_mem _ hp)) htail
      refine ⟨t, ?_, ?_⟩
      · simp only [invTagsSanP]
        exact List.mem_append_right _ ht
      · simp only [sanP]
        rw [sanV_ok v hv, he]

/-- `_p_sanitize` raises `InvalidDocument`, naming a disallowed type
occurring in the document, whenever one occurs at a visited position. -/
theorem sanV_err (x : Value) : hasInvalidSan x = true →
    ∃ t, t ∈ invTagsSan x ∧ sanV x = .error (.invalidDoc t) := by
  induction x using Value.myInd with
  | hleaf n => intro h; simp [hasInvalidSan] at h
  | hinv ty => intro _; exact ⟨ty, by simp [invTagsSan], rfl⟩
  | hson kvs ih => intro h; simp [hasInvalidSan] at h
  | hlist xs ih =>
    intro h
    simp only [hasInvalidSan] at h
    obtain ⟨t, ht, he⟩ := sanL_err xs ih h
    refine ⟨t, ht, ?_⟩
    simp only [sanV]
    rw [he]
  | hdict kvs ih =>
    intro h
    simp only [hasInvalidSan] at h
    obtain ⟨t, ht, he⟩ := sanP_err kvs ih h
    refine ⟨t, ht, ?_⟩
    simp only [sanV]
    rw [he]

theorem desanL_ok : ∀ (xs : List Value),
    (∀ x ∈ xs, hasInvalidSan x = false → ∃ y, desanV x = .ok y) →
    hasInvalidSanL xs = false → ∃ ys, desanL xs = .ok ys
  | [], _, _ => ⟨[], rfl⟩
  | x :: xs, ih, h => by
    simp only [hasInvalidSanL, Bool.or_eq_false_iff] at h
    obtain ⟨y, hy⟩ := ih x (List.mem_cons_self x xs) h.1
    obtain ⟨ys, hys⟩ := desanL_ok xs
      (fun z hz => ih z (List.mem_cons_of_mem x hz)) h.2
    exact ⟨y :: ys, by simp only [desanL]; rw [hy, hys]⟩

theorem desanP_ok : ∀ (kvs : List (List Char × Value)),
    (∀ p ∈ kvs, hasInvalidSan p.2 = false → ∃ y, desanV p.2 = .ok y) →
    hasInvalidSanP kvs = false → ∃ lws, desanP kvs = .ok lws
  | [], _, _ => ⟨[], rfl⟩
  | (k, v) :: rest, ih, h => by
    simp only [hasInvalidSanP, Bool.or_eq_false_iff] at h
    obtain ⟨y, hy⟩ := ih (k, v) (List.mem_cons_self _ rest) h.1
    obtain ⟨lws, hlws⟩ := desanP_ok rest
      (fun p hp => ih p (List.mem_cons_of_mem _ hp)) h.2
    exact ⟨(desanKey k, y) :: lws, by simp only [desanP]; rw [hy, hlws]⟩

theorem desanV_ok (x : Value) : hasInvalidSan x = false →
    ∃ y, desanV x = .ok y := by
  induction x using Value.myInd with
  | hleaf n => intro _; exact ⟨.leaf n, rfl⟩
  | hinv ty => intro h; simp [hasInvalidSan] at h
  | hson kvs ih => intro _; exact ⟨.vson kvs, rfl⟩
  | hlist xs ih =>
    intro h
    simp only [hasInvalidSan] at h
    obtain ⟨ys, hys⟩ := desanL_ok xs ih h
    exact ⟨.vlist ys, by simp only [desanV]; rw [hys]⟩
  | hdict kvs ih =>
    intro h
    simp only [hasInvalidSan] at h
    obtain ⟨lws, hlws⟩ := desanP_ok kvs ih h
    exact ⟨.vdict lws, by simp only [desanV]; rw [hlws]⟩

theorem desanL_err : ∀ (xs : List Value),
    (∀ x ∈ xs, hasInvalidSan x = true →
      ∃ t, t ∈ invTagsSan x ∧ desanV x = .error (.invalidDoc t)) →
    hasInvalidSanL xs = true →
    ∃ t, t ∈ invTagsSanL xs ∧ desanL xs = .error (.invalidDoc t)
  | [], _, h => by simp [hasInvalidSanL] at h
  | x :: xs, ih, h => by
    by_cases hx : hasInvalidSan x = true
    · obtain ⟨t, ht, he⟩ := ih x (List.mem_cons_self x xs) hx
      refine ⟨t, ?_, ?_⟩
      · simp only [invTagsSanL]
        exact List.mem_append_left _ ht
      · simp only [desanL]
        rw [he]
    · rw [Bool.not_eq_true] at hx
      simp only [hasInvalidSanL, Bool.or_eq_true] at h
      have htail : hasInvalidSanL xs = true := by
        rcases h with h | h
        · rw [hx] at h; exact absurd h (by decide)
        · exact h
      obtain ⟨t, ht, he⟩ := desanL_err xs
        (fun y hy => ih y (List.mem_cons_of_mem x hy)) htail
      obtain ⟨y, hy⟩ := desanV_ok x hx
      refine ⟨t, ?_, ?_⟩
      · simp only [invTagsSanL]
        exact List.mem_append_right _ ht
      · simp only [desanL]
        rw [hy, he]

theorem desanP_err : ∀ (kvs : List (List Char × Value)),
    (∀ p ∈ kvs, hasInvalidSan p.2 = true →
      ∃ t, t ∈ invTagsSan p.2 ∧ desanV p.2 = .error (.invalidDoc t)) →
    hasInvalidSanP kvs = true →
    ∃ t, t ∈ invTagsSanP kvs ∧ desanP kvs = .error (.invalidDoc t)
  | [], _, h => by simp [hasInvalidSanP] at h
  | (k, v) :: rest, ih, h => by
    by_cases hv : hasInvalidSan v = true
    · obtain ⟨t, ht, he⟩ := ih (k, v) (List.mem_cons_self _ rest) hv
      refine ⟨t, ?_, ?_⟩
      · simp only [invTagsSanP]
        exact List.mem_append_left _ ht
      · simp only [desanP]
        rw [he]
    · rw [Bool.not_eq_true] at hv
      simp only [hasInvalidSanP, Bool.or_eq_true] at h
      have htail : hasInvalidSanP rest = true := by
        rcases h with h | h
        · rw [hv] at h; exact absurd h (by decide)
        · exact h
      obtain ⟨t, ht, he⟩ := desanP_err rest
        (fun p hp => ih p (List.mem_cons_of_mem _ hp)) htail
      obtain ⟨y, hy⟩ := desanV_ok v hv
      refine ⟨t, ?_, ?_⟩
      · simp only [invTagsSanP]
        exact List.mem_append_right _ ht
      · simp only [desanP]
        rw [hy, he]

/-- `_p_desanitize` raises `InvalidDocument`, naming a disallowed type
occurring in the document, whenever one occurs at a visited position. -/
theorem desanV_err (x : Value) : hasInvalidSan x = true →
    ∃ t, t ∈ invTagsSan x ∧ desanV x = .error (.invalidDoc t) := by
  induction x using Value.myInd with
  | hleaf n => intro h; simp [hasInvalidSan] at h
  | hinv ty => intro _; exact ⟨ty, by simp [invTagsSan], rfl⟩
  | hson kvs ih => intro h; simp [hasInvalidSan] at h
  | hlist xs ih =>
    intro h
    simp only [hasInvalidSan] at h
    obtain ⟨t, ht, he⟩ := desanL_err xs ih h
    refine ⟨t, ht, ?_⟩
    simp only [desanV]
    rw [he]
  | hdict kvs ih =>
    intro h
    simp only [hasInvalidSan] at h
    obtain ⟨t, ht, he⟩ := desanP_err kvs ih h
    refine ⟨t, ht, ?_⟩
    simp only [desanV]
    rw [he]

/- ## Skeleton lemmas -/

theorem mem_insertPair {q p : List Char × Value}
    {l : List (List Char × Value)} :
    q ∈ insertPair p l ↔ q = p ∨ q ∈ l := by
  induction l with
  | nil => simp [insertPair]
  | cons r rest ih =>
    simp only [insertPair]
    split
    · simp
    · simp only [List.mem_cons, ih]
      tauto

theorem mem_sortPairs {q : List Char × Value} {l : List (List Char × Value)} :
    q ∈ sortPairs l ↔ q ∈ l := by
  induction l with
  | nil => simp [sortPairs]
  | cons p rest ih => simp [sortPairs, mem_insertPair, ih]

theorem hasInvalidFullP_iff {kvs : List (List Char × Value)} :
    hasInvalidFullP kvs = false ↔ ∀ p ∈ kvs, hasInvalidFull p.2 = false := by
  induction kvs with
  | nil => simp [hasInvalidFullP]
  | cons p rest ih =>
    obtain ⟨k, v⟩ := p
    simp only [hasInvalidFullP, Bool.or_eq_false_iff, ih]
    constructor
    · rintro ⟨h1, h2⟩ p hp
      rcases List.mem_cons.1 hp with h | h
      · subst h; exact h1
      · exact h2 p h
    · intro h
      exact ⟨h (k, v) (List.mem_cons_self _ _),
        fun p hp => h p (List.mem_cons_of_mem _ hp)⟩

theorem mem_invTagsFullP {t : List Char} {l : List (List Char × Value)}
    {p : List Char × Value} (hp : p ∈ l) (ht : t ∈ invTagsFull p.2) :
    t ∈ invTagsFullP l := by
  induction l with
  | nil => simp at hp
  | cons q rest ih =>
    obtain ⟨k, v⟩ := q
    rcases List.mem_cons.1 hp with h | h
    · subst h
      simp only [invTagsFullP]
      exact List.mem_append_left _ ht
    · simp only [invTagsFullP]
      exact List.mem_append_right _ (ih h)

theorem skelL_ok : ∀ (xs : List Value),
    (∀ x ∈ xs, hasInvalidFull x = false → ∃ s, pSkel x = .ok s) →
    hasInvalidFullL xs = false → ∃ outs, pSkelL xs = .ok outs
  | [], _, _ => ⟨[], by simp [pSkelL]⟩
  | x :: xs, ih, h => by
    simp only [hasInvalidFullL, Bool.or_eq_false_iff] at h
    obtain ⟨s, hs⟩ := ih x (List.mem_cons_self x xs) h.1
    obtain ⟨outs, houts⟩ := skelL_ok xs
      (fun y hy => ih y (List.mem_cons_of_mem x hy)) h.2
    match s with
    | none => exact ⟨outs, by simp only [pSkelL]; rw [hs, houts]⟩
    | some str => exact ⟨str :: outs, by simp only [pSkelL]; rw [hs, houts]⟩

theorem skelP_ok : ∀ (ps : List (List Char × Value)),
    (∀ p ∈ ps, hasInvalidFull p.2 = false → ∃ s, pSkel p.2 = .ok s) →
    (∀ p ∈ ps, hasInvalidFull p.2 = false) →
    ∃ outs, pSkelP ps = .ok outs
  | [], _, _ => ⟨[], by simp [pSkelP]⟩
  | (k, v) :: rest, ih, h => by
    obtain ⟨s, hs⟩ := ih (k, v) (List.mem_cons_self _ rest)
      (h (k, v) (List.mem_cons_self _ rest))
    obtain ⟨outs, houts⟩ := skelP_ok rest
      (fun p hp => ih p (List.mem_cons_of_mem _ hp))
      (fun p hp => h p (List.mem_cons_of_mem _ hp))
    match s with
    | none => exact ⟨k :: outs, by simp only [pSkelP]; rw [hs, houts]⟩
    | some str =>
      exact ⟨(k ++ ':' :: str) :: outs, by simp only [pSkelP]; rw [hs, houts]⟩

theorem skel_ok (x : Value) : hasInvalidFull x = false →
    ∃ s, pSkel x = .ok s := by
  induction x using Value.myInd with
  | hleaf n => intro _; exact ⟨none, by simp [pSkel]⟩
  | hinv ty => intro h; simp [hasInvalidFull] at h
  | hlist xs ih =>
    intro h
    simp only [hasInvalidFull] at h
    obtain ⟨outs, houts⟩ := skelL_ok xs ih h
    exact ⟨some ('[' :: joinComma outs ++ [']']), by
      simp only [pSkel]; rw [houts]⟩
  | hdict kvs ih =>
    intro h
    simp only [hasInvalidFull] at h
    have hmem := hasInvalidFullP_iff.1 h
    obtain ⟨outs, houts⟩ := skelP_ok (sortPairs kvs)
      (fun p hp => ih p (mem_sortPairs.1 hp))
      (fun p hp => hmem p (mem_sortPairs.1 hp))
    exact ⟨some ('{' :: joinComma outs ++ ['}']), by
      simp only [pSkel]; rw [houts]⟩
  | hson kvs ih =>
    intro h
    simp only [hasInvalidFull] at h
    have hmem := hasInvalidFullP_iff.1 h
    obtain ⟨outs, houts⟩ := skelP_ok (sortPairs kvs)
      (fun p hp => ih p (mem_sortPairs.1 hp))
      (fun p hp => hmem p (mem_sortPairs.1 hp))
    exact ⟨some ('{' :: joinComma outs ++ ['}']), by
      simp only [pSkel]; rw [houts]⟩

theorem skelL_err : ∀ (xs : List Value),
    (∀ x ∈ xs, hasInvalidFull x = true →
      ∃ t, t ∈ invTagsFull x ∧ pSkel x = .error (.invalidDoc t)) →
    (∀ x ∈ xs, hasInvalidFull x = false → ∃ s, pSkel x = .ok s) →
    hasInvalidFullL xs = true →
    ∃ t, t ∈ invTagsFullL xs ∧ pSkelL xs = .error (.invalidDoc t)
  | [], _, _, h => by simp [hasInvalidFullL] at h
  | x :: xs, ihe, iho, h => by
    by_cases hx : hasInvalidFull x = true
    · obtain ⟨t, ht, he⟩ := ihe x (List.mem_cons_self x xs) hx
      refine ⟨t, ?_, ?_⟩
      · simp only [invTagsFullL]
        exact List.mem_append_left _ ht
      · simp only [pSkelL]
        rw [he]
    · rw [Bool.not_eq_true] at hx
      simp only [hasInvalidFullL, Bool.or_eq_true] at h
      have htail : hasInvalidFullL xs = true := by
        rcases h with h | h
        · rw [hx] at h; exact absurd h (by decide)
        · exact h
      obtain ⟨t, ht, he⟩ := skelL_err xs
        (fun y hy => ihe y (List.mem_cons_of_mem x hy))
        (fun y hy => iho y (List.mem_cons_of_mem x hy)) htail
      obtain ⟨s, hs⟩ := iho x (List.mem_cons_self x xs) hx
      refine ⟨t, ?_, ?_⟩
      · simp only [invTagsFullL]
        exact List.mem_append_right _ ht
      · simp only [pSkelL]
        match s, hs with
        | none, hs => rw [hs, he]
        | some str, hs => rw [hs, he]

theorem skelP_err : ∀ (ps : List (List Char × Value)),
    (∀ p ∈ ps, hasInvalidFull p.2 = true →
      ∃ t, t ∈ invTagsFull p.2 ∧ pSkel p.2 = .error (.invalidDoc t)) →
    (∀ p ∈ ps, hasInvalidFull p.2 = false → ∃ s, pSkel p.2 = .ok s) →
    (∃ p ∈ ps, hasInvalidFull p.2 = true) →
    ∃ t, (∃ p ∈ ps, t ∈ invTagsFull p.2) ∧ pSkelP ps = .error (.invalidDoc t)
  | [], _, _, h => by simp at h
  | (k, v) :: rest, ihe, iho, h => by
    by_cases hv : hasInvalidFull v = true
    · obtain ⟨t, ht, he⟩ := ihe (k, v) (List.mem_cons_self _ rest) hv
      refine ⟨t, ⟨(k, v), List.mem_cons_self _ rest, ht⟩, ?_⟩
      simp only [pSkelP]
      rw [he]
    · rw [Bool.not_eq_true] at hv
      have htail : ∃ p ∈ rest, hasInvalidFull p.2 = true := by
        obtain ⟨p, hp, hpt⟩ := h
        rcases List.mem_cons.1 hp with h' | h'
        · subst h'
          rw [hv] at hpt; exact absurd hpt (by decide)
        · exact ⟨p, h', hpt⟩
      obtain ⟨t, ⟨p, hp, ht⟩, he⟩ := skelP_err rest
        (fun q hq => ihe q (List.mem_cons_of_mem _ hq))
        (fun q hq => iho q (List.mem_cons_of_mem _ hq)) htail
      obtain ⟨s, hs⟩ := iho (k, v) (List.mem_cons_self _ rest) hv
      refine ⟨t, ⟨p, List.mem_cons_of_mem _ hp, ht⟩, ?_⟩
      simp only [pSkelP]
      match s, hs with
      | none, hs => rw [hs, he]
      | some str, hs => rw [hs, he]

/-- `_p_skeleton` raises `InvalidDocument`, naming a disallowed type
occurring in the document, whenever one occurs anywhere — including
inside `SON` mappings, which the skeleton does recurse into. -/
theorem skel_err (x : Value) : hasInvalidFull x = true →
    ∃ t, t ∈ invTagsFull x ∧ pSkel x = .error (.invalidDoc t) := by
  induction x using Value.myInd with
  | hleaf n => intro h; simp [hasInvalidFull] at h
  | hinv ty => intro _; exact ⟨ty, by simp [invTagsFull], by simp [pSkel]⟩
  | hlist xs ih =>
    intro h
    simp only [hasInvalidFull] at h
    obtain ⟨t, ht, he⟩ := skelL_err xs ih (fun y hy => skel_ok y) h
    refine ⟨t, ht, ?_⟩
    simp only [pSkel]
    rw [he]
  | hdict kvs ih =>
    intro h
    simp only [hasInvalidFull] at h
    have hex : ∃ p ∈ sortPairs kvs, hasInvalidFull p.2 = true := by
      by_contra hc
      push_neg at hc
      have : hasInvalidFullP kvs = false := hasInvalidFullP_iff.2 (fun p hp => by
        cases hval : hasInvalidFull p.2 with
        | false => rfl
        | true => exact absurd hval (hc p (mem_sortPairs.2 hp)))
      rw [this] at h
      exact absurd h (by decide)
    obtain ⟨t, ⟨p, hp, ht⟩, he⟩ := skelP_err (sortPairs kvs)
      (fun q hq => ih q (mem_sortPairs.1 hq))
      (fun q hq => skel_ok q.2) hex
    refine ⟨t, mem_invTagsFullP (mem_sortPairs.1 hp) ht, ?_⟩
    simp only [pSkel]
    rw [he]
  | hson kvs ih =>
    intro h
    simp only [hasInvalidFull] at h
    have hex : ∃ p ∈ sortPairs kvs, hasInvalidFull p.2 = true := by
      by_contra hc
      push_neg at hc
      have : hasInvalidFullP kvs = false := hasInvalidFullP_iff.2 (fun p hp => by
        cases hval : hasInvalidFull p.2 with
        | false => rfl
        | true => exact absurd hval (hc p (mem_sortPairs.2 hp)))
      rw [this] at h
      exact absurd h (by decide)
    obtain ⟨t, ⟨p, hp, ht⟩, he⟩ := skelP_err (sortPairs kvs)
      (fun q hq => ih q (mem_sortPairs.1 hq))
      (fun q hq => skel_ok q.2) hex
    refine ⟨t, mem_invTagsFullP (mem_sortPairs.1 hp) ht, ?_⟩
    simp only [pSkel]
    rw [he]

/- ## Shape-only dependence of the skeleton -/

theorem pSkel_leaf (n : Nat) : pSkel (.leaf n) = .ok none := by simp [pSkel]

theorem lexLt_asymm : ∀ {a b : List Char}, lexLt a b = true → lexLt b a = false
  | [], [], h => by simp [lexLt] at h
  | [], _ :: _, _ => by simp [lexLt]
  | _ :: _, [], h => by simp [lexLt] at h
  | a :: as_, b :: bs, h => by
    simp only [lexLt] at h ⊢
    by_cases hab : a < b
    · rw [if_neg (by exact fun hba => absurd hab (lt_asymm hba)),
        if_neg (by intro hba; rw [hba] at hab; exact absurd hab (lt_irrefl a))]
    · rw [if_neg hab] at h
      by_cases heq : a = b
      · rw [if_pos heq] at h
        subst heq
        rw [if_neg (lt_irrefl a), if_pos rfl]
        exact lexLt_asymm h
      · rw [if_neg heq] at h
        exact absurd h (by decide)

theorem sameStructP_nil : ∀ {ls : List (List Char × Value)},
    sameStructP [] ls = true → ls = []
  | [], _ => rfl
  | (k, v) :: rest, h => by simp [sameStructP] at h

theorem sameStructP_cons {k : List Char} {v : Value}
    {rest ls : List (List Char × Value)}
    (h : sameStructP ((k, v) :: rest) ls = true) :
    ∃ k' v' rest', ls = (k', v') :: rest' ∧ k = k' ∧
      sameStruct v v' = true ∧ sameStructP rest rest' = true := by
  match ls with
  | [] => simp [sameStructP] at h
  | (k', v') :: rest' =>
    simp only [sameStructP, Bool.and_eq_true, decide_eq_true_eq] at h
    exact ⟨k', v', rest', rfl, h.1.1, h.1.2, h.2⟩

theorem sameStructL_nil : ∀ {ys : List Value}, sameStructL [] ys = true → ys = []
  | [], _ => rfl
  | y :: ys, h => by simp [sameStructL] at h

theorem sameStructL_cons {x : Value} {xs ys : List Value}
    (h : sameStructL (x :: xs) ys = true) :
    ∃ y ys', ys = y :: ys' ∧ sameStruct x y = true ∧ sameStructL xs ys' = true := by
  match ys with
  | [] => simp [sameStructL] at h
  | y :: ys' =>
    simp only [sameStructL, Bool.and_eq_true] at h
    exact ⟨y, ys', rfl, h.1, h.2⟩

theorem insertPair_cong : ∀ {kp kq : List Char} {vp vq : Value}
    {ks ls : List (List Char × Value)},
    kp = kq → sameStruct vp vq = true → sameStructP ks ls = true →
    sameStructP (insertPair (kp, vp) ks) (insertPair (kq, vq) ls) = true
  | kp, kq, vp, vq, [], ls, hk, hv, h => by
    rw [sameStructP_nil h]
    subst hk
    simp [insertPair, sameStructP, hv]
  | kp, kq, vp, vq, (k, v) :: rest, ls, hk, hv, h => by
    obtain ⟨k', v', rest', hls, hkk, hvv, hrest⟩ := sameStructP_cons h
    subst hls
    subst hk
    subst hkk
    simp only [insertPair]
    by_cases hlt : lexLt kp k = true
    · rw [if_pos hlt, if_pos hlt]
      simp only [sameStructP, Bool.and_eq_true, decide_eq_true_eq]
      exact ⟨⟨trivial, hv⟩, ⟨trivial, hvv⟩, hrest⟩
    · rw [if_neg hlt, if_neg hlt]
      simp only [sameStructP, Bool.and_eq_true, decide_eq_true_eq]
      exact ⟨⟨trivial, hvv⟩, insertPair_cong rfl hv hrest⟩

theorem sortPairs_cong : ∀ {ks ls : List (List Char × Value)},
    sameStructP ks ls = true →
    sameStructP (sortPairs ks) (sortPairs ls) = true
  | [], ls, h => by rw [sameStructP_nil h]; simp [sortPairs, sameStructP]
  | (k, v) :: rest, ls, h => by
    obtain ⟨k', v', rest', hls, hkk, hvv, hrest⟩ := sameStructP_cons h
    subst hls
    simp only [sortPairs]
    exact insertPair_cong hkk hvv (sortPairs_cong hrest)

theorem pSkelL_cong : ∀ (xs ys : List Value),
    (∀ x ∈ xs, ∀ y, sameStruct x y = true → pSkel x = pSkel y) →
    sameStructL xs ys = true → pSkelL xs = pSkelL ys
  | [], ys, _, h => by rw [sameStructL_nil h]
  | x :: xs, ys, ih, h => by
    obtain ⟨y, ys', hys, hxy, hrest⟩ := sameStructL_cons h
    subst hys
    simp only [pSkelL]
    rw [ih x (List.mem_cons_self x xs) y hxy]
    rw [pSkelL_cong xs ys' (fun z hz => ih z (List.mem_cons_of_mem x hz)) hrest]

theorem pSkelP_cong : ∀ (ks ls : List (List Char × Value)),
    (∀ p ∈ ks, ∀ y, sameStruct p.2 y = true → pSkel p.2 = pSkel y) →
    sameStructP ks ls = true → pSkelP ks = pSkelP ls
  | [], ls, _, h => by rw [sameStructP_nil h]
  | (k, v) :: rest, ls, ih, h => by
    obtain ⟨k', v', rest', hls, hkk, hvv, hrest⟩ := sameStructP_cons h
    subst hls
    subst hkk
    simp only [pSkelP]
    rw [ih (k, v) (List.mem_cons_self _ rest) v' hvv]
    rw [pSkelP_cong rest rest' (fun p hp => ih p (List.mem_cons_of_mem _ hp)) hrest]

/-- Documents with identical key structure have identical skeletons: the
skeleton depends only on the shape, never on leaf payloads. -/
theorem sameStruct_skel (x : Value) :
    ∀ y, sameStruct x y = true → pSkel x = pSkel y := by
  induction x using Value.myInd with
  | hleaf n =>
    intro y h
    match y with
    | .leaf m => simp [pSkel]
    | .vlist _ | .vdict _ | .vson _ | .invalid _ => simp [sameStruct] at h
  | hinv ty =>
    intro y h
    match y with
    | .invalid ty' =>
      simp only [sameStruct, decide_eq_true_eq] at h
      rw [h]
    | .leaf _ | .vlist _ | .vdict _ | .vson _ => simp [sameStruct] at h
  | hlist xs ih =>
    intro y h
    match y with
    | .vlist ys =>
      simp only [sameStruct] at h
      simp only [pSkel]
      rw [pSkelL_cong xs ys ih h]
    | .leaf _ | .invalid _ | .vdict _ | .vson _ => simp [sameStruct] at h
  | hdict kvs ih =>
    intro y h
    match y with
    | .vdict lws =>
      simp only [sameStruct] at h
      simp only [pSkel]
      rw [pSkelP_cong (sortPairs kvs) (sortPairs lws)
        (fun p hp => ih p (mem_sortPairs.1 hp)) (sortPairs_cong h)]
    | .leaf _ | .invalid _ | .vlist _ | .vson _ => simp [sameStruct] at h
  | hson kvs ih =>
    intro y h
    match y with
    | .vson lws =>
      simp only [sameStruct] at h
      simp only [pSkel]
      rw [pSkelP_cong (sortPairs kvs) (sortPairs lws)
        (fun p hp => ih p (mem_sortPairs.1 hp)) (sortPairs_cong h)]
    | .leaf _ | .invalid _ | .vlist _ | .vdict _ => simp [sameStruct] at h

/-- A list of scalar leaves contributes no sub-shapes at all. -/
theorem pSkelL_scalars : ∀ (xs : List Value),
    (∀ x ∈ xs, isLeafB x = true) → pSkelL xs = .ok []
  | [], _ => by simp [pSkelL]
  | x :: xs, h => by
    have hx := h x (List.mem_cons_self x xs)
    match x, hx with
    | .leaf n, _ =>
      simp only [pSkelL, pSkel_leaf]
      exact pSkelL_scalars xs (fun y hy => h y (List.mem_cons_of_mem _ hy))

/- ## Index-profile sink lemmas -/

/-- The covered flag after processing a run of observations: unchanged by
an empty run, otherwise the most recent indexOnly value. -/
def lastCov (obs : List (Bool × Int)) (cov : Option Bool) : Option Bool :=
  match obs.getLast? with
  | none => cov
  | some p => some p.1

theorem lastCov_cons (p : Bool × Int) (rest : List (Bool × Int))
    (cov : Option Bool) : lastCov (p :: rest) cov = lastCov rest (some p.1) := by
  match rest with
  | [] => simp [lastCov]
  | r :: rest' =>
    simp only [lastCov, List.getLast?_cons_cons]
    cases hg : (r :: rest').getLast? with
    | none => simp at hg
    | some s => rfl

theorem lastCov_of_ne {obs : List (Bool × Int)} (h : obs ≠ [])
    (cov : Option Bool) : lastCov obs cov = (obs.getLast?).map Prod.fst := by
  match obs with
  | [] => exact absurd rfl h
  | p :: rest =>
    rw [lastCov]
    match hg : (p :: rest).getLast? with
    | none => simp at hg
    | some r => simp

theorem updateFirst_none {p : IxDoc → Bool} {f : IxDoc → IxDoc} :
    ∀ {l : Store}, (∀ d ∈ l, p d = false) → updateFirst p f l = l
  | [], _ => rfl
  | d :: ds, h => by
    rw [updateFirst, if_neg (by rw [h d (List.mem_cons_self d ds)]; exact fun hc => absurd hc (by decide))]
    rw [updateFirst_none (fun x hx => h x (List.mem_cons_of_mem d hx))]

theorem updateFirst_append {p : IxDoc → Bool} {f : IxDoc → IxDoc} :
    ∀ {A B : Store}, (∀ d ∈ A, p d = false) →
    updateFirst p f (A ++ B) = A ++ updateFirst p f B
  | [], B, _ => rfl
  | d :: A, B, h => by
    simp only [List.cons_append, updateFirst]
    rw [if_neg (by rw [h d (List.mem_cons_self d A)]; exact fun hc => absurd hc (by decide))]
    exact congrArg (List.cons d)
      (updateFirst_append (fun x hx => h x (List.mem_cons_of_mem d hx)))

theorem findDoc_cons_none {d : IxDoc} {sess coll idx : List Char} {B : Store}
    (hd : keyMatches d sess coll idx = false) :
    findDoc sess coll idx (d :: B) = findDoc sess coll idx B := by
  simp only [findDoc, List.find?]
  rw [hd]

theorem findDoc_found : ∀ {A : Store} {d : IxDoc} {sess coll idx : List Char}
    {B : Store}, (∀ x ∈ A, keyMatches x sess coll idx = false) →
    keyMatches d sess coll idx = true →
    findDoc sess coll idx (A ++ d :: B) = some d
  | [], d, sess, coll, idx, B, _, hd => by
    simp only [List.nil_append, findDoc, List.find?]
    rw [hd]
  | a :: A, d, sess, coll, idx, B, hA, hd => by
    simp only [List.cons_append]
    rw [findDoc_cons_none (hA a (List.mem_cons_self a A))]
    exact findDoc_found (fun x hx => hA x (List.mem_cons_of_mem a hx)) hd

theorem findDoc_none_iff {sess coll idx : List Char} {st : Store} :
    findDoc sess coll idx st = none ↔
      ∀ d ∈ st, keyMatches d sess coll idx = false := by
  simp only [findDoc, List.find?_eq_none, Bool.not_eq_true]

theorem any_tripleEq_false {st : Store} {e : SEvent}
    (h : ∀ d ∈ st, keyMatches d e.session e.collection e.cursor = false) :
    st.any (fun d => tripleEq d e) = false := by
  rw [List.any_eq_false]
  intro d hd
  have := h d hd
  simp only [tripleEq, keyMatches] at this ⊢
  rw [this]
  exact fun hc => absurd hc (by decide)

theorem any_tripleEq_true {A B : Store} {d : IxDoc} {e : SEvent}
    (hd : tripleEq d e = true) :
    (A ++ d :: B).any (fun x => tripleEq x e) = true := by
  rw [List.any_eq_true]
  exact ⟨d, by simp, hd⟩

/-- The key-matching predicate at an event built from the triple is the
triple match itself. -/
theorem tripleEq_mk {d : IxDoc} {sess coll idx q : List Char} {io : Bool}
    {m : Int} : tripleEq d ⟨sess, coll, idx, q, io, m⟩ =
      keyMatches d sess coll idx := rfl

/-- First send against a store with no document for the triple: a fresh
aggregate document is appended holding exactly one entry with count 1,
covered set to this observation and a single duration. -/
theorem sinkSend_fresh {st : Store} {sess coll idx q : List Char} {io : Bool}
    {m : Int} (h : ∀ d ∈ st, keyMatches d sess coll idx = false) :
    sinkSend ⟨sess, coll, idx, q, io, m⟩ st =
      st ++ [⟨sess, coll, idx, [⟨q, 1, some io, [m]⟩]⟩] := by
  rw [sinkSend, insertAggregate]
  rw [if_neg (by rw [any_tripleEq_false h]; exact fun hc => absurd hc (by decide))]
  rw [pushFreshEntry, updateFirst_append (fun d hd => by
    rw [tripleEq_mk, h d hd]
    rfl)]
  simp only [updateFirst]
  rw [if_pos (by simp [tripleEq, keyMatches, hasQuery])]
  rw [bumpEntry, updateFirst_append (fun d hd => by
    rw [tripleEq_mk, h d hd]
    rfl)]
  simp only [updateFirst]
  rw [if_pos (by simp [tripleEq, keyMatches, hasQuery])]
  simp [bumpFirst, updateFirst]

/-- A later send with the same triple and query value: the single entry is
bumped in place — count incremented, covered overwritten, duration
appended — and nothing else changes. -/
theorem sinkSend_bump {A B : Store} {sess coll idx q : List Char}
    {k : Nat} {cov : Option Bool} {durs : List Int} {io : Bool} {m : Int}
    (hA : ∀ d ∈ A, keyMatches d sess coll idx = false)
    (hB : ∀ d ∈ B, keyMatches d sess coll idx = false) :
    sinkSend ⟨sess, coll, idx, q, io, m⟩
        (A ++ ⟨sess, coll, idx, [⟨q, k, cov, durs⟩]⟩ :: B) =
      A ++ ⟨sess, coll, idx, [⟨q, k + 1, some io, durs ++ [m]⟩]⟩ :: B := by
  rw [sinkSend, insertAggregate,
    if_pos (any_tripleEq_true (by simp [tripleEq, keyMatches]))]
  rw [pushFreshEntry, updateFirst_append (fun d hd => by
    rw [tripleEq_mk, hA d hd]
    rfl)]
  simp only [updateFirst]
  rw [if_neg (by simp [tripleEq, keyMatches, hasQuery])]
  rw [updateFirst_none (fun d hd => by
    rw [tripleEq_mk, hB d hd]
    rfl)]
  rw [bumpEntry, updateFirst_append (fun d hd => by
    rw [tripleEq_mk, hA d hd]
    rfl)]
  simp only [updateFirst]
  rw [if_pos (by simp [tripleEq, keyMatches, hasQuery])]
  simp [bumpFirst]

/-- A send with the same triple but a different query value appends a
second independent entry and leaves the existing entry untouched. -/
theorem sinkSend_second {A B : Store} {sess coll idx q q' : List Char}
    {k : Nat} {cov : Option Bool} {durs : List Int} {io' : Bool} {m' : Int}
    (hq : q' ≠ q)
    (hA : ∀ d ∈ A, keyMatches d sess coll idx = false)
    (hB : ∀ d ∈ B, keyMatches d sess coll idx = false) :
    sinkSend ⟨sess, coll, idx, q', io', m'⟩
        (A ++ ⟨sess, coll, idx, [⟨q, k, cov, durs⟩]⟩ :: B) =
      A ++ ⟨sess, coll, idx,
        [⟨q, k, cov, durs⟩, ⟨q', 1, some io', [m']⟩]⟩ :: B := by
  rw [sinkSend, insertAggregate,
    if_pos (any_tripleEq_true (by simp [tripleEq, keyMatches]))]
  rw [pushFreshEntry, updateFirst_append (fun d hd => by
    rw [tripleEq_mk, hA d hd]
    rfl)]
  simp only [updateFirst]
  rw [if_pos (by
    simp [tripleEq, keyMatches, hasQuery]
    exact fun hc => absurd hc.symm hq)]
  rw [bumpEntry, updateFirst_append (fun d hd => by
    rw [tripleEq_mk, hA d hd]
    rfl)]
  simp only [updateFirst]
  rw [if_pos (by simp [tripleEq, keyMatches, hasQuery])]
  simp only [bumpFirst]
  rw [if_neg (fun hc => hq hc.symm)]
  simp [bumpFirst]

theorem sendRun_cons (sess coll idx q : List Char) (p : Bool × Int)
    (rest : List (Bool × Int)) (st : Store) :
    sendRun sess coll idx q (p :: rest) st =
      sendRun sess coll idx q rest
        (sinkSend ⟨sess, coll, idx, q, p.1, p.2⟩ st) := rfl

/-- Invariant run: processing a run of observations against a store whose
unique document for the triple holds one entry for this query value bumps
that entry once per observation. -/
theorem sendRun_inv : ∀ (obs : List (Bool × Int)) {A B : Store}
    {sess coll idx q : List Char} {k : Nat} {cov : Option Bool}
    {durs : List Int},
    (∀ d ∈ A, keyMatches d sess coll idx = false) →
    (∀ d ∈ B, keyMatches d sess coll idx = false) →
    sendRun sess coll idx q obs
        (A ++ ⟨sess, coll, idx, [⟨q, k, cov, durs⟩]⟩ :: B) =
      A ++ ⟨sess, coll, idx,
        [⟨q, k + obs.length, lastCov obs cov,
          durs ++ obs.map Prod.snd⟩]⟩ :: B
  | [], A, B, sess, coll, idx, q, k, cov, durs, hA, hB => by
    simp [sendRun, lastCov]
  | p :: rest, A, B, sess, coll, idx, q, k, cov, durs, hA, hB => by
    rw [sendRun_cons, sinkSend_bump hA hB, sendRun_inv rest hA hB]
    rw [lastCov_cons]
    simp only [List.map_cons, List.length_cons]
    rw [show k + 1 + rest.length = k + (rest.length + 1) from by omega]
    simp

/- ## Tracked-cursor counting lemmas -/

theorem runOps_cons_mem {s : Finset Nat} {c : Nat} (ops : List Nat)
    (h : c ∈ s) : runOps s (c :: ops) = c :: runOps (s.erase c) ops := by
  simp [runOps, termFire, h]

theorem runOps_cons_notMem {s : Finset Nat} {c : Nat} (ops : List Nat)
    (h : c ∉ s) : runOps s (c :: ops) = runOps s ops := by
  simp [runOps, termFire, h]

theorem runOps_count_notMem : ∀ (s : Finset Nat) (ops : List Nat) (c : Nat),
    c ∉ s → (runOps s ops).count c = 0
  | _, [], _, _ => rfl
  | s, o :: ops, c, h => by
    by_cases ho : o ∈ s
    · rw [runOps_cons_mem ops ho]
      have hco : c ≠ o := fun hc => h (hc ▸ ho)
      rw [List.count_cons]
      rw [runOps_count_notMem (s.erase o) ops c
        (fun hc => h (Finset.mem_of_mem_erase hc))]
      simp [hco, Ne.symm hco]
    · rw [runOps_cons_notMem ops ho]
      exact runOps_count_notMem s ops c h

theorem runOps_count_mem : ∀ (s : Finset Nat) (ops : List Nat) (c : Nat),
    c ∈ s → (runOps s ops).count c = if c ∈ ops then 1 else 0
  | _, [], _, _ => by simp [runOps]
  | s, o :: ops, c, h => by
    by_cases hoc : o = c
    · subst hoc
      rw [runOps_cons_mem ops h, List.count_cons]
      rw [runOps_count_notMem (s.erase o) ops o (Finset.not_mem_erase o s)]
      simp
    · by_cases ho : o ∈ s
      · rw [runOps_cons_mem ops ho, List.count_cons]
        rw [runOps_count_mem (s.erase o) ops c
          (Finset.mem_erase.2 ⟨fun hc => hoc hc.symm, h⟩)]
        have hco : c ≠ o := fun hc => hoc hc.symm
        simp [List.mem_cons, hco, Ne.symm hco]
      · rw [runOps_cons_notMem ops ho]
        rw [runOps_count_mem s ops c h]
        have hco : c ≠ o := fun hc => hoc hc.symm
        simp [List.mem_cons, hco]

/- ## Claim theorems -/

/-- C1 (counterexample): with a tracked cursor whose `explain` raises an
exception that is neither `TypeError` nor `OperationFailure` (for example
a connection failure during plan retrieval — squarely a failure of the
profiling path), the interceptor propagates the failure instead of
returning the result of the original wrapped operation, contradicting the
claim as stated. -/
theorem c1_counterexample :
    cursorMethodCall true (Except.error PyExc.otherExc)
        (Except.ok ['q']) (Except.ok ['s']) (fun _ => Except.ok ())
        ['d'] ['c'] (fun n : Nat => n + 1) 5 = Except.error PyExc.otherExc ∧
    (Except.error PyExc.otherExc : Except PyExc Nat) ≠ Except.ok 6 :=
  ⟨rfl, fun h => Except.noConfusion h⟩

/-- C1 (amended): for every intercepted call — a cursor terminal operation
on a tracked or untracked cursor, and an update whether sampled or not —
provided any plan-retrieval failure is of the `TypeError` or
`OperationFailure` kind, the interceptor returns the result of invoking
the original wrapped operation with the original arguments, and no
failure in event construction (query encoding, call-site resolution) or
push propagates to the caller; a plan-retrieval failure of any other
exception kind propagates. -/
theorem c1_amended {α β : Type} (tracked sampled : Bool)
    (explainRes : Except PyExc PlanDoc)
    (dumpsQuery sourceRes : Except PyExc (List Char))
    (pushF : PushEvent → Except PyExc Unit)
    (database collection : List Char) (orig : α → β) (arg : α)
    (hex : explainRes ≠ Except.error PyExc.otherExc) :
    cursorMethodCall tracked explainRes dumpsQuery sourceRes pushF
        database collection orig arg = Except.ok (orig arg) ∧
    updateCall sampled explainRes dumpsQuery sourceRes pushF
        database collection orig arg = Except.ok (orig arg) := by
  constructor
  · cases tracked
    · simp [cursorMethodCall]
    · match explainRes, hex with
      | .ok pl, _ => simp [cursorMethodCall]
      | .error .typeError, _ => simp [cursorMethodCall]
      | .error .operationFailure, _ => simp [cursorMethodCall]
      | .error .otherExc, hex => exact absurd rfl hex
  · cases sampled
    · simp [updateCall]
    · match explainRes, hex with
      | .ok pl, _ => simp [updateCall]
      | .error .typeError, _ => simp [updateCall]
      | .error .operationFailure, _ => simp [updateCall]
      | .error .otherExc, hex => exact absurd rfl hex

/-- C1 (witness): a sampled, tracked call whose plan retrieval fails with
a caught kind and whose pusher fails outright still returns the original
result. -/
theorem c1_witness :
    cursorMethodCall true (Except.error PyExc.operationFailure)
        (Except.error PyExc.otherExc) (Except.ok [])
        (fun _ => Except.error PyExc.otherExc) ['d'] ['c']
        (fun n : Nat => n * 2) 21 = Except.ok 42 ∧
    updateCall true (Except.error PyExc.operationFailure)
        (Except.error PyExc.otherExc) (Except.ok [])
        (fun _ => Except.error PyExc.otherExc) ['d'] ['c']
        (fun n : Nat => n * 2) 21 = Except.ok 42 :=
  c1_amended true true (Except.error PyExc.operationFailure)
    (Except.error PyExc.otherExc) (Except.ok [])
    (fun _ => Except.error PyExc.otherExc) ['d'] ['c']
    (fun n : Nat => n * 2) 21 (fun h => by
      have := Except.error.inj h
      exact absurd this (by decide))

/-- C2: a cursor added to the tracked set via `track_cursor` produces at
most one push over any subsequent sequence of terminal operations: the
count of pushes on its behalf is exactly one when some terminal operation
is invoked on it (the first such invocation fires and removes it) and
zero otherwise, and in particular never exceeds one. -/
theorem c2_at_most_one_push (s : Finset Nat) (c : Nat) (ops : List Nat) :
    (runOps (trackCursor c s) ops).count c = (if c ∈ ops then 1 else 0) ∧
    (runOps (trackCursor c s) ops).count c ≤ 1 := by
  have h := runOps_count_mem (trackCursor c s) ops c
    (Finset.mem_insert_self c s)
  refine ⟨h, ?_⟩
  rw [h]
  split <;> omega

/-- C3: starting from a store with no document for the key triple,
processing N ≥ 1 events sharing session, collection, plan cursor and query
value leaves the stored document for that triple with exactly one
`queries` entry for that query value, carrying `count = N`, `durations`
exactly the N observed milliseconds in order, and `covered` equal to the
`indexOnly` flag of the most recent event; a further event with a
different query value under the same triple appends a second independent
entry and leaves the first entry untouched. -/
theorem c3_index_profile_aggregate (sess coll idx q : List Char) (st : Store)
    (obs : List (Bool × Int)) (hne : obs ≠ [])
    (hnone : findDoc sess coll idx st = none) :
    (findDoc sess coll idx (sendRun sess coll idx q obs st)).map IxDoc.queries
      = some [⟨q, obs.length, (obs.getLast?).map Prod.fst,
          obs.map Prod.snd⟩] ∧
    ∀ (q' : List Char) (io' : Bool) (m' : Int), q' ≠ q →
      (findDoc sess coll idx
          (sinkSend ⟨sess, coll, idx, q', io', m'⟩
            (sendRun sess coll idx q obs st))).map IxDoc.queries
        = some [⟨q, obs.length, (obs.getLast?).map Prod.fst,
              obs.map Prod.snd⟩,
            ⟨q', 1, some io', [m']⟩] := by
  have hall := findDoc_none_iff.1 hnone
  match obs, hne with
  | p :: rest, _ =>
    have hBnil : ∀ d ∈ ([] : Store), keyMatches d sess coll idx = false := by
      intro d hd
      exact absurd hd (List.not_mem_nil d)
    have hrun : sendRun sess coll idx q (p :: rest) st =
        st ++ ⟨sess, coll, idx,
          [⟨q, 1 + rest.length, lastCov rest (some p.1),
            [p.2] ++ rest.map Prod.snd⟩]⟩ :: [] := by
      rw [sendRun_cons, sinkSend_fresh hall]
      exact sendRun_inv rest hall hBnil
    have hcov : lastCov rest (some p.1)
        = ((p :: rest).getLast?).map Prod.fst := by
      rw [← lastCov_cons p rest none, lastCov_of_ne (by simp) none]
    have hqs : (⟨q, 1 + rest.length, lastCov rest (some p.1),
          [p.2] ++ rest.map Prod.snd⟩ : QEntry)
        = ⟨q, (p :: rest).length, ((p :: rest).getLast?).map Prod.fst,
            (p :: rest).map Prod.snd⟩ := by
      rw [hcov]
      simp only [List.length_cons, List.map_cons]
      rw [show 1 + rest.length = rest.length + 1 from by omega]
      simp
    constructor
    · rw [hrun, findDoc_found hall (by simp [keyMatches])]
      rw [Option.map_some']
      rw [hqs]
    · intro q' io' m' hq'
      rw [hrun, sinkSend_second hq' hall hBnil,
        findDoc_found hall (by simp [keyMatches])]
      rw [Option.map_some']
      rw [hqs]

/-- C3 (witness): two concrete events with the same query value then one
with a different query value. -/
theorem c3_witness :
    (findDoc ['s'] ['c'] ['i']
        (sinkSend ⟨['s'], ['c'], ['i'], ['r'], true, 9⟩
          (sendRun ['s'] ['c'] ['i'] ['q'] [(true, 3), (false, 5)]
            []))).map IxDoc.queries
      = some [⟨['q'], 2, some false, [3, 5]⟩, ⟨['r'], 1, some true, [9]⟩] := by
  have h := (c3_index_profile_aggregate ['s'] ['c'] ['i'] ['q'] []
    [(true, 3), (false, 5)] (by simp) rfl).2 ['r'] true 9 (by decide)
  simpa using h

/-- C4 (counterexample): the key underscore-comma-dot contains neither
escape token as a substring, yet the round trip returns a different
document: sanitize encodes it as five characters in which the desanitize
scan finds a spurious comma token first. -/
theorem c4_counterexample :
    specTokenFree ['_', ',', '.'] = true ∧
    hasInvalidFull (Value.vdict [(['_', ',', '.'], Value.leaf 0)]) = false ∧
    Except.bind (sanV (Value.vdict [(['_', ',', '.'], Value.leaf 0)])) desanV
      = Except.ok (Value.vdict [(['.', ',', '_'], Value.leaf 0)]) ∧
    Value.vdict [(['.', ',', '_'], Value.leaf 0)]
      ≠ Value.vdict [(['_', ',', '.'], Value.leaf 0)] := by
  refine ⟨by decide, by decide, rfl, ?_⟩
  intro h
  rw [Value.vdict.injEq] at h
  simp at h

/-- C4 (amended): for every value composed only of allowed leaf types,
lists and mappings, `desanitize(sanitize(x)) == x` provided no plain-dict
key contains `_$_`, `_,_`, or the substring underscore-comma-dot. -/
theorem c4_amended_roundtrip (x : Value) (hv : hasInvalidFull x = false)
    (hk : goodKeys x = true) :
    Except.bind (sanV x) desanV = Except.ok x := by
  rw [sanV_ok x (hasInvalidSan_of_full x hv)]
  exact desanV_sanSpec x hk (hasInvalidSan_of_full x hv)

/-- C4 (witness): a nested document with dots and dollars in its keys
round-trips. -/
theorem c4_witness :
    Except.bind
      (sanV (Value.vdict [(['a', '.', 'b'],
        Value.vlist [Value.vdict [(['$', 'x'], Value.leaf 1)]])]))
      desanV
      = Except.ok (Value.vdict [(['a', '.', 'b'],
          Value.vlist [Value.vdict [(['$', 'x'], Value.leaf 1)]])]) :=
  c4_amended_roundtrip _ (by decide) (by decide)

/-- C5 (counterexample): a field-ordered mapping (`SON`, a member of
`BSON_TYPES`) passes through `_p_sanitize` unchanged — its dollar-headed
key is not rewritten, although the claim requires every mapping key at
every nesting level, including keys of field-ordered mappings, to be
escaped. -/
theorem c5_counterexample :
    sanV (Value.vson [(['$', 'a'], Value.leaf 0)])
      = Except.ok (Value.vson [(['$', 'a'], Value.leaf 0)]) ∧
    sanKey ['$', 'a'] ≠ ['$', 'a'] :=
  ⟨rfl, by decide⟩

/-- C5 (amended): sanitize replaces every literal dollar with `_$_` and
every literal dot with `_,_` in every plain-dict key at every nesting
level reachable through lists and plain dicts, leaves every leaf value
unchanged, and returns field-ordered (`SON`) mappings entirely
untouched — as computed by the spec-side function `sanSpec`. -/
theorem c5_amended_sanitize (x : Value) (h : hasInvalidSan x = false) :
    sanV x = Except.ok (sanSpec x) := sanV_ok x h

/-- C5 (witness): keys with a dot and with a dollar are escaped, the leaf
values and the `SON` sub-document are untouched. -/
theorem c5_witness :
    sanV (Value.vdict [(['a', '.'], Value.leaf 3),
        (['$'], Value.vson [(['$', 'z'], Value.leaf 4)])])
      = Except.ok (Value.vdict [(['a', '_', ',', '_'], Value.leaf 3),
          (['_', '$', '_'], Value.vson [(['$', 'z'], Value.leaf 4)])]) := by
  rw [c5_amended_sanitize _ (by decide)]
  rfl

/-- C6: for both the find and the update interceptor classes, wrapping
when the slot already holds an instance of that class leaves the whole
state unchanged; unwrapping after wrapping an original restores the exact
original operation (and, when the cursor slots were also originals, the
exact whole state); unwrapping when no interceptor is installed is a
no-op. -/
theorem c6_wrap_unwrap (st : InstrumentState) :
    (isFindW st.find = true → findWrapS st = st) ∧
    (isUpdateW st.update = true → updateWrapS st = st) ∧
    (isFindW st.find = false → (findUnwrapS (findWrapS st)).find = st.find) ∧
    (isUpdateW st.update = false →
      (updateUnwrapS (updateWrapS st)).update = st.update) ∧
    (isFindW st.find = false → isCursorW st.next = false →
      isCursorW st.count = false → isCursorW st.distinct = false →
      findUnwrapS (findWrapS st) = st) ∧
    (isFindW st.find = false → findUnwrapS st = st) ∧
    (isUpdateW st.update = false → updateUnwrapS st = st) := by
  refine ⟨?_, ?_, ?_, ?_, ?_, ?_, ?_⟩
  · intro h
    rw [findWrapS, if_pos h]
  · intro h
    rw [updateWrapS, if_pos h]
  · intro h
    have h' : ¬isFindW st.find = true := by rw [h]; decide
    rw [findWrapS, if_neg h']
    simp [findUnwrapS]
  · intro h
    have h' : ¬isUpdateW st.update = true := by rw [h]; decide
    rw [updateWrapS, if_neg h']
    simp [updateUnwrapS]
  · intro h hn hc hd
    have h' : ¬isFindW st.find = true := by rw [h]; decide
    have hcu : ∀ o : Op, isCursorW o = false →
        cursorUnwrapOp (cursorWrapOp o) = o := by
      intro o ho
      rw [cursorWrapOp, if_neg (by rw [ho]; decide)]
      rfl
    rw [findWrapS, if_neg h']
    simp only [findUnwrapS]
    rw [hcu st.next hn, hcu st.count hc, hcu st.distinct hd]
  · intro h
    cases hf : st.find with
    | findW f => rw [hf] at h; simp [isFindW] at h
    | base n => simp [findUnwrapS, hf]
    | updateW f => simp [findUnwrapS, hf]
    | cursorW f => simp [findUnwrapS, hf]
  · intro h
    cases hf : st.update with
    | updateW f => rw [hf] at h; simp [isUpdateW] at h
    | base n => simp [updateUnwrapS, hf]
    | findW f => simp [updateUnwrapS, hf]
    | cursorW f => simp [updateUnwrapS, hf]

/-- C6 (witness): wrap then unwrap restores a concrete all-original
state, and double wrap is a no-op on it. -/
theorem c6_witness :
    findUnwrapS (findWrapS ⟨.base 0, .base 1, .base 2, .base 3, .base 4⟩)
      = ⟨.base 0, .base 1, .base 2, .base 3, .base 4⟩ ∧
    findWrapS (findWrapS ⟨.base 0, .base 1, .base 2, .base 3, .base 4⟩)
      = findWrapS ⟨.base 0, .base 1, .base 2, .base 3, .base 4⟩ := by
  constructor
  · exact (c6_wrap_unwrap ⟨.base 0, .base 1, .base 2, .base 3, .base 4⟩).2.2.2.2.1
      (by decide) (by decide) (by decide) (by decide)
  · exact (c6_wrap_unwrap (findWrapS ⟨.base 0, .base 1, .base 2, .base 3, .base 4⟩)).1
      (by decide)

theorem joinComma_single (l : List Char) : joinComma [l] = l := by
  simp [joinComma, List.intercalate]

/-- C7: the skeleton follows the three-case recursion: a list keeps only
the sub-shapes of non-scalar elements in original order inside brackets —
so a list of scalar leaves yields the two-character bracket pair whatever
its length; a mapping (plain or field-ordered alike) iterates keys in
lexicographically sorted order, emitting key-colon-subshape when the
value has a sub-shape and the bare key otherwise, inside braces; and the
resulting shape string depends only on the key structure, never on leaf
values. -/
theorem c7_skeleton :
    (∀ xs : List Value, (∀ x ∈ xs, isLeafB x = true) →
      pSkel (.vlist xs) = .ok (some ['[', ']'])) ∧
    (∀ x y : Value, sameStruct x y = true → pSkel x = pSkel y) ∧
    (∀ kvs : List (List Char × Value),
      pSkel (.vdict kvs) = pSkel (.vson kvs)) ∧
    (∀ (k1 : List Char) (v1 : Value) (k2 : List Char) (v2 : Value),
      lexLt k1 k2 = true →
      pSkel (.vdict [(k2, v2), (k1, v1)])
        = pSkel (.vdict [(k1, v1), (k2, v2)])) ∧
    (∀ (k : List Char) (x : Value) (s : List Char), pSkel x = .ok (some s) →
      pSkel (.vdict [(k, x)])
        = .ok (some ('{' :: (k ++ ':' :: s) ++ ['}']))) ∧
    (∀ (k : List Char) (x : Value), pSkel x = .ok none →
      pSkel (.vdict [(k, x)]) = .ok (some ('{' :: k ++ ['}']))) := by
  refine ⟨?_, ?_, ?_, ?_, ?_, ?_⟩
  · intro xs h
    simp only [pSkel]
    rw [pSkelL_scalars xs h]
    rfl
  · exact sameStruct_skel
  · intro kvs
    simp only [pSkel]
  · intro k1 v1 k2 v2 h
    have hs1 : sortPairs [(k2, v2), (k1, v1)] = [(k1, v1), (k2, v2)] := by
      simp only [sortPairs, insertPair]
      rw [if_neg (by rw [lexLt_asymm h]; decide)]
    have hs2 : sortPairs [(k1, v1), (k2, v2)] = [(k1, v1), (k2, v2)] := by
      simp only [sortPairs, insertPair]
      rw [if_pos h]
    simp only [pSkel]
    rw [hs1, hs2]
  · intro k x s hx
    have hsp : sortPairs [(k, x)] = [(k, x)] := by
      simp [sortPairs, insertPair]
    simp only [pSkel]
    rw [hsp]
    simp only [pSkelP]
    rw [hx]
    simp only [pSkelP]
    rw [joinComma_single]
  · intro k x hx
    have hsp : sortPairs [(k, x)] = [(k, x)] := by
      simp [sortPairs, insertPair]
    simp only [pSkel]
    rw [hsp]
    simp only [pSkelP]
    rw [hx]
    simp only [pSkelP]
    rw [joinComma_single]

/-- C7 (witness): a list of scalars collapses to the bare bracket pair,
via the first conjunct. -/
theorem c7_witness :
    pSkel (.vlist [.leaf 1, .leaf 2, .leaf 3]) = .ok (some ['[', ']']) :=
  c7_skeleton.1 [.leaf 1, .leaf 2, .leaf 3] (by decide)

/-- C8 (counterexample): a disallowed value sitting inside a
field-ordered (`SON`) mapping — a mapping value position — raises no
error from sanitize or desanitize: both return the document unchanged,
although the claim requires all three utilities to raise. -/
theorem c8_counterexample :
    sanV (Value.vson [(['a'], Value.invalid ['F', 'o', 'o'])])
      = Except.ok (Value.vson [(['a'], Value.invalid ['F', 'o', 'o'])]) ∧
    desanV (Value.vson [(['a'], Value.invalid ['F', 'o', 'o'])])
      = Except.ok (Value.vson [(['a'], Value.invalid ['F', 'o', 'o'])]) ∧
    hasInvalidFull (Value.vson [(['a'], Value.invalid ['F', 'o', 'o'])])
      = true :=
  ⟨rfl, rfl, by decide⟩

/-- C8 (amended): skeleton raises an invalid-document error naming an
occurring disallowed type whenever one occurs anywhere in the document
(including inside `SON`); sanitize and desanitize do so whenever one
occurs at a position they visit — any position reachable through lists
and plain dicts — but treat `SON` mappings as opaque leaves. -/
theorem c8_amended_invalid_errors :
    (∀ x : Value, hasInvalidFull x = true →
      ∃ t, t ∈ invTagsFull x ∧ pSkel x = .error (.invalidDoc t)) ∧
    (∀ x : Value, hasInvalidSan x = true →
      ∃ t, t ∈ invTagsSan x ∧ sanV x = .error (.invalidDoc t)) ∧
    (∀ x : Value, hasInvalidSan x = true →
      ∃ t, t ∈ invTagsSan x ∧ desanV x = .error (.invalidDoc t)) :=
  ⟨skel_err, sanV_err, desanV_err⟩

/-- C8 (witness): a disallowed value inside a list raises from the
skeleton. -/
theorem c8_witness :
    ∃ t, t ∈ invTagsFull (.vlist [.leaf 0, .invalid ['F']]) ∧
      pSkel (.vlist [.leaf 0, .invalid ['F']])
        = .error (.invalidDoc t) :=
  c8_amended_invalid_errors.1 (.vlist [.leaf 0, .invalid ['F']]) (by decide)

/-- C9: `handle` invokes `send` exactly when `filter` returns false and
leaves the store untouched when `filter` returns true; and for both
concrete profile sinks the filter returns true exactly when the event
collection starts with the dollar sigil. -/
theorem c9_sink_filter :
    (∀ {ev addr σ : Type} (filterF : ev → addr → Bool)
        (sendF : ev → addr → σ → σ) (e : ev) (a : addr) (st : σ),
      (filterF e a = true → sinkHandle filterF sendF e a st = st) ∧
      (filterF e a = false → sinkHandle filterF sendF e a st = sendF e a st)) ∧
    (∀ (e : SEvent) (a : List Char),
      profileFilter e a = true ↔ ∃ r, e.collection = '$' :: r) ∧
    (∀ (e : QPEvent) (a : List Char),
      queryProfileFilter e a = true ↔ ∃ r, e.collection = '$' :: r) := by
  refine ⟨?_, ?_, ?_⟩
  · intro ev addr σ filterF sendF e a st
    constructor
    · intro h
      rw [sinkHandle, if_pos h]
    · intro h
      rw [sinkHandle, if_neg (by rw [h]; decide)]
  · intro e a
    cases hc : e.collection with
    | nil => simp [profileFilter, hc]
    | cons c rest =>
      simp only [profileFilter, hc, decide_eq_true_eq, List.cons.injEq]
      constructor
      · intro h
        exact ⟨rest, h.symm ▸ rfl, rfl⟩
      · rintro ⟨r, hr, -⟩
        exact hr
  · intro e a
    cases hc : e.collection with
    | nil => simp [queryProfileFilter, hc]
    | cons c rest =>
      simp only [queryProfileFilter, hc, decide_eq_true_eq, List.cons.injEq]
      constructor
      · intro h
        exact ⟨rest, h.symm ▸ rfl, rfl⟩
      · rintro ⟨r, hr, -⟩
        exact hr

/-- C9 (witness): an event on a dollar-collection is dropped — the store
is untouched although the supplied send would have changed it. -/
theorem c9_witness :
    sinkHandle profileFilter
      (fun (_ : SEvent) (_ : List Char) (st : List Nat) => 1 :: st)
      ⟨['s'], ['$', 'c'], ['i'], ['q'], true, 0⟩ ['a'] [] = [] :=
  (c9_sink_filter.1 profileFilter
    (fun (_ : SEvent) (_ : List Char) (st : List Nat) => 1 :: st)
    ⟨['s'], ['$', 'c'], ['i'], ['q'], true, 0⟩ ['a'] []).1 (by decide)

/-- C10: with a non-empty skip set, when every frame at or beyond the
starting depth resolves to a package in the skip set, `get_source`
raises (first element of an empty filtered sequence) instead of
returning; and a file-line string is returned only when some frame at or
beyond the starting depth lies outside the skip set — the first such
frame, formatted. -/
theorem c10_get_source :
    (∀ (ps : List (List Char)) (up : Nat) (stack : List Frame),
      ps ≠ [] → (∀ f ∈ stack.drop up, inPackages f.pkg ps = true) →
      get_source (some ps) up stack = .error .indexError) ∧
    (∀ (ps : List (List Char)) (up : Nat) (stack : List Frame)
        (out : List Char), get_source (some ps) up stack = .ok out →
      ∃ f ∈ stack.drop up, inPackages f.pkg ps = false ∧
        out = formatSource f) := by
  constructor
  · intro ps up stack hne hall
    have hfilter : (stack.drop up).filter
        (fun f => !inPackages f.pkg ps) = [] := by
      rw [List.filter_eq_nil_iff]
      intro f hf
      rw [hall f hf]
      decide
    simp only [get_source]
    cases hg : stack.get? up with
    | none => rfl
    | some f0 =>
      rw [hfilter]
      rfl
  · intro ps up stack out h
    simp only [get_source] at h
    cases hg : stack.get? up with
    | none =>
      rw [hg] at h
      simp at h
    | some f0 =>
      rw [hg] at h
      cases hh : ((stack.drop up).filter
          (fun f => !inPackages f.pkg ps)).head? with
      | none =>
        rw [hh] at h
        simp at h
      | some f =>
        rw [hh] at h
        simp only [Except.ok.injEq] at h
        have hf : f ∈ (stack.drop up).filter
            (fun f => !inPackages f.pkg ps) := by
          cases hl : (stack.drop up).filter (fun f => !inPackages f.pkg ps) with
          | nil => rw [hl] at hh; simp at hh
          | cons g t =>
            rw [hl] at hh
            simp only [List.head?_cons, Option.some.injEq] at hh
            subst hh
            exact List.mem_cons_self g t
        have hmem := List.mem_filter.1 hf
        have hfalse : inPackages f.pkg ps = false := by
          have h2 := hmem.2
          cases hb : inPackages f.pkg ps
          · rfl
          · rw [hb] at h2; exact absurd h2 (by decide)
        exact ⟨f, hmem.1, hfalse, h.symm⟩

/-- C10 (witness): a two-frame stack whose only frame at depth one
resolves to the single skipped package makes `get_source` raise. -/
theorem c10_witness :
    get_source (some [['p']]) 1
      [⟨some ['q'], ['f'], 1⟩, ⟨some ['p'], ['g'], 2⟩]
      = Except.error PErr.indexError :=
  c10_get_source.1 [['p']] 1
    [⟨some ['q'], ['f'], 1⟩, ⟨some ['p'], ['g'], 2⟩]
    (by decide) (by decide)

end Mongodrums
